import Mathlib

/-!
Shallow embedding of the simcraft discrete-event simulation engine
(crates/simcraft), translated from the Rust sources:

- simulator/event.rs, simulator/simulation.rs, simulator/simulation_context.rs
- model/process_context.rs, model/process_state.rs, model/connection.rs
- model/nodes/{pool,source,drain,delay,stepper,event_priority}.rs

Modelling conventions:

- `f64` values (times, resource amounts, flow rates) are modelled as `ℚ`.
  All arithmetic the engine performs on them (addition, subtraction, min,
  max, comparison) is exact on the values the simulations here produce, so
  `ℚ` is a faithful model; `f64::EPSILON` is kept as the exact rational
  `2 ^ (-52)` and used in the same comparisons as the code.
- Rust `HashMap`s are modelled as association lists.  A `HashMap`'s
  iteration order is unspecified in Rust; where the engine iterates a map
  (`process_broadcast_event`, `group_events_by_target`) the embedding
  iterates in an explicitly recorded order (`proc_order`, first-occurrence
  grouping), which represents one possible iteration order of the map.
- `BinaryHeap<Event>` is modelled as a list together with `popMin`, which
  removes the minimum under the `Ord` instance of event.rs
  (time first, then sequence number, reversed for a min-heap).
- Rust panics (`unimplemented!`, failed `assert!`) are modelled as `none`;
  fallible engine operations return `Except SimulationError`.
- The sources contain divergent revisions of the event payload type:
  event.rs declares unit `PullRequest`/`PullAllRequest`, while pool.rs and
  drain.rs construct and match `PullRequest(amount)` and
  `PullAllRequest { amount, total_required }`.  The embedding uses the
  amount-carrying variants (needed by pool.rs/drain.rs, the files the
  claims cite); source.rs and event_priority.rs, which match the unit
  variants, are embedded as matching a pull payload with any argument.
-/

set_option allowUnsafeReducibility true
attribute [local semireducible] Rat.add Rat.mul Rat.sub Rat.div Rat.neg Rat.inv

namespace Simcraft

/-- `f64::EPSILON` = 2⁻⁵², the tolerance the scheduler uses for comparing
event times (simulation.rs). -/
def epsF : ℚ := 1 / 2 ^ 52

/-- Tolerance `ε = 1e-9` named by the conservation property of the spec. -/
def consTol : ℚ := 1 / 10 ^ 9

/-- EventPayload (simulator/event.rs), with the amount-carrying pull
variants used by pool.rs / drain.rs (see the file header). -/
inductive EventPayload where
  | simulationStart
  | simulationEnd
  | step
  | trigger
  | resource (amount : ℚ)
  | resourceAccepted (amount : ℚ)
  | resourceRejected (amount : ℚ)
  | custom (s : String)
  | pullRequest (amount : ℚ)
  | pullAllRequest (amount : ℚ) (total_required : ℚ)
  deriving Repr, DecidableEq

/-- Event (simulator/event.rs). -/
structure Event where
  source_id : String
  source_port : Option String
  target_id : String
  target_port : Option String
  time : ℚ
  payload : EventPayload
  sequence_number : ℕ
  deriving Repr, DecidableEq

/-- Event construction: `Event::new` plus the `with_*_port` builders;
`sequence_number` starts at 0 and is reassigned by the scheduler. -/
def Event.mk0 (source_id : String) (source_port : Option String) (target_id : String)
    (target_port : Option String) (time : ℚ) (payload : EventPayload) : Event :=
  { source_id := source_id, source_port := source_port, target_id := target_id,
    target_port := target_port, time := time, payload := payload, sequence_number := 0 }

/-- Connection (model/connection.rs). -/
structure Connection where
  id : String
  source_id : String
  source_port : Option String
  target_id : String
  target_port : Option String
  flow_rate : Option ℚ
  sequence_number : ℕ
  deriving Repr, DecidableEq

/-- ProcessContext (model/process_context.rs): per-invocation snapshot of the
clock plus the target process's input and output connections. -/
structure ProcessContext where
  current_step : ℕ
  current_time : ℚ
  inputs : List Connection
  outputs : List Connection
  deriving Repr, DecidableEq

/-- `ProcessContext::inputs_for_port`. -/
def ProcessContext.inputs_for_port (ctx : ProcessContext) (port : Option String) :
    List Connection :=
  ctx.inputs.filter (fun conn => conn.target_port == port)

/-- `ProcessContext::outputs_for_port`. -/
def ProcessContext.outputs_for_port (ctx : ProcessContext) (port : Option String) :
    List Connection :=
  ctx.outputs.filter (fun conn => conn.source_port == port)

/-! ### Process configuration enums (model/nodes/mod.rs) -/

inductive TriggerMode where
  | passive | interactive | automatic | enabling
  deriving Repr, DecidableEq

inductive Action where
  | pullAny | pullAll | pushAny | pushAll
  deriving Repr, DecidableEq

inductive Overflow where
  | block | drain
  deriving Repr, DecidableEq

inductive DelayAction where
  | delay | queue
  deriving Repr, DecidableEq

/-! ### Process states (model/process_state.rs) -/

structure PoolState where
  resources : ℚ
  pending_outgoing_resources : ℚ
  deriving Repr, DecidableEq

/-- `PoolState::available_resources`. -/
def PoolState.available_resources (s : PoolState) : ℚ :=
  max (s.resources - s.pending_outgoing_resources) 0

structure SourceState where
  resources_produced : ℚ
  deriving Repr, DecidableEq

structure DrainState where
  resources_consumed : ℚ
  deriving Repr, DecidableEq

structure DelayState where
  resources_received : ℚ
  resources_released : ℚ
  pending_outgoing_resources : ℚ
  deriving Repr, DecidableEq

/-- `DelayState::current_resources`. -/
def DelayState.current_resources (s : DelayState) : ℚ :=
  s.resources_received - s.resources_released

/-- `DelayState::available_resources`. -/
def DelayState.available_resources (s : DelayState) : ℚ :=
  max (s.current_resources - s.pending_outgoing_resources) 0

structure StepperState where
  current_step : ℕ
  deriving Repr, DecidableEq

/-! ### Pool (model/nodes/pool.rs) -/

structure Pool where
  id : String
  state : PoolState
  trigger_mode : TriggerMode
  action : Action
  overflow : Overflow
  capacity : ℚ
  deriving Repr, DecidableEq

/-- One iteration of the PushAny loop of `Pool::handle_automatic_action`:
`push = min(self.state.resources, flow_rate)` (the raw resources), and if
positive, book it as pending and emit a Resource event. -/
def Pool.pushAnyStep (pid : String) (t : ℚ) (acc : Pool × List Event)
    (conn : Connection) : Pool × List Event :=
  let flow_rate := conn.flow_rate.getD 1
  let push_amount := min acc.1.state.resources flow_rate
  if 0 < push_amount then
    ({ acc.1 with state := { acc.1.state with
        pending_outgoing_resources := acc.1.state.pending_outgoing_resources + push_amount } },
     acc.2 ++ [Event.mk0 pid (some "out") conn.target_id
        (some (conn.target_port.getD "in")) t (.resource push_amount)])
  else acc

/-- One iteration of the PushAll loop of `Pool::handle_automatic_action`:
book each flow rate as pending and emit the Resource event. -/
def Pool.pushAllStep (pid : String) (t : ℚ) (acc : Pool × List Event)
    (conn : Connection) : Pool × List Event :=
  let flow_rate := conn.flow_rate.getD 1
  ({ acc.1 with state := { acc.1.state with
      pending_outgoing_resources := acc.1.state.pending_outgoing_resources + flow_rate } },
   acc.2 ++ [Event.mk0 pid (some "out") conn.target_id
      (some (conn.target_port.getD "in")) t (.resource flow_rate)])

/-- `Pool::handle_automatic_action`.  Note that the PushAny branch computes
`self.state.resources.min(flow_rate)` (the raw resources, not
`available_resources`) and only accumulates `pending_outgoing_resources`. -/
def Pool.handle_automatic_action (p : Pool) (ctx : ProcessContext) : Pool × List Event :=
  match p.action with
  | .pushAny =>
    (ctx.outputs_for_port (some "out")).foldl
      (Pool.pushAnyStep p.id ctx.current_time) (p, [])
  | .pushAll =>
    let outputs := ctx.outputs_for_port (some "out")
    let total_required := (outputs.map (fun conn => conn.flow_rate.getD 1)).sum
    if total_required ≤ p.state.resources then
      outputs.foldl (Pool.pushAllStep p.id ctx.current_time) (p, [])
    else (p, [])
  | .pullAny =>
    (p, (ctx.inputs_for_port (some "in")).map (fun conn =>
      Event.mk0 p.id none conn.source_id none ctx.current_time
        (.pullRequest (conn.flow_rate.getD 1))))
  | .pullAll =>
    let inputs := ctx.outputs_for_port (some "in")
    let total_requested := (inputs.map (fun conn => conn.flow_rate.getD 1)).sum
    (p, inputs.map (fun conn =>
      Event.mk0 conn.source_id none p.id none ctx.current_time
        (.pullAllRequest (conn.flow_rate.getD 1) total_requested)))

/-- `Pool::handle_pull_request`: commits `min(resources, amount)` (raw
resources) to pending and always emits one Resource event back. -/
def Pool.handle_pull_request (p : Pool) (event : Event) (ctx : ProcessContext)
    (amount : ℚ) : Pool × List Event :=
  let push_amount := min p.state.resources amount
  ({ p with state := { p.state with
      pending_outgoing_resources := p.state.pending_outgoing_resources + push_amount } },
   [Event.mk0 p.id (some "out") event.source_id (some "in") ctx.current_time
      (.resource push_amount)])

/-- `Pool::handle_resource`: capacity / overflow acceptance logic. -/
def Pool.handle_resource (p : Pool) (event : Event) (ctx : ProcessContext)
    (amount : ℚ) : Pool × List Event :=
  let ar : ℚ × ℚ × Pool :=
    if p.capacity < 0 ∨ p.state.resources + amount ≤ p.capacity then
      (amount, 0,
        { p with state := { p.state with resources := p.state.resources + amount } })
    else
      match p.overflow with
      | .block => (0, amount, p)
      | .drain =>
        let accepted := max (p.capacity - p.state.resources) 0
        (accepted, amount - accepted,
          { p with state := { p.state with resources := p.state.resources + accepted } })
  let accepted := ar.1
  let rejected := ar.2.1
  let p2 := ar.2.2
  (p2,
    (if 0 < accepted then
      [Event.mk0 p.id none event.source_id none ctx.current_time (.resourceAccepted accepted)]
    else []) ++
    (if 0 < rejected then
      [Event.mk0 p.id none event.source_id none ctx.current_time (.resourceRejected rejected)]
    else []))

/-- `Pool::on_event` (impl Processor for Pool). -/
def Pool.on_event (p : Pool) (event : Event) (ctx : ProcessContext) : Pool × List Event :=
  match event.payload with
  | .step =>
    match p.trigger_mode with
    | .automatic => p.handle_automatic_action ctx
    | _ => (p, [])
  | .trigger => (p, [])
  | .resource amount => p.handle_resource event ctx amount
  | .resourceAccepted amount =>
    ({ p with state :=
        { resources := p.state.resources - amount,
          pending_outgoing_resources := p.state.pending_outgoing_resources - amount } }, [])
  | .resourceRejected amount =>
    ({ p with state := { p.state with
        pending_outgoing_resources := p.state.pending_outgoing_resources - amount } }, [])
  | .pullRequest amount => p.handle_pull_request event ctx amount
  | _ => (p, [])

/-! ### Source (model/nodes/source.rs) -/

structure Source where
  id : String
  state : SourceState
  trigger_mode : TriggerMode
  action : Action
  deriving Repr, DecidableEq

/-- `Source::handle_push_any`. -/
def Source.handle_push_any (s : Source) (ctx : ProcessContext) : Source × List Event :=
  (s, (ctx.outputs_for_port (some "out")).map (fun conn =>
    Event.mk0 s.id (some "out") conn.target_id (some (conn.target_port.getD "in"))
      ctx.current_time (.resource (conn.flow_rate.getD 1))))

/-- `Source::handle_automatic_action`; PushAll / PullAny / PullAll hit
`unimplemented!`, modelled as `none`. -/
def Source.handle_automatic_action (s : Source) (ctx : ProcessContext) :
    Option (Source × List Event) :=
  match s.action with
  | .pushAny => some (s.handle_push_any ctx)
  | _ => none

/-- `Source::handle_pull_request`: the reply amount is the flow rate of the
output connection to the requester (default 1.0). -/
def Source.handle_pull_request (s : Source) (event : Event) (ctx : ProcessContext) :
    Source × List Event :=
  let amount :=
    ((((ctx.outputs_for_port (some "out")).find?
        (fun conn => conn.target_id == event.source_id)).bind
      (fun conn => conn.flow_rate)).getD 1)
  (s, [Event.mk0 s.id (some "out") event.source_id (some (event.source_port.getD "in"))
        ctx.current_time (.resource amount)])

/-- `Source::on_event`; `Interactive` + Step hits `unimplemented!` and the
final `assert!(resources_produced >= 0.0)` is modelled as a `none` result on
failure. -/
def Source.on_event (s : Source) (event : Event) (ctx : ProcessContext) :
    Option (Source × List Event) :=
  let result : Option (Source × List Event) :=
    match event.payload with
    | .simulationStart => some (s, [])
    | .simulationEnd => some (s, [])
    | .step =>
      match s.trigger_mode with
      | .passive => some (s, [])
      | .interactive => none
      | .automatic => s.handle_automatic_action ctx
      | .enabling =>
        if ctx.current_step == 1 then s.handle_automatic_action ctx else some (s, [])
    | .trigger => s.handle_automatic_action ctx
    | .pullRequest _ => some (s.handle_pull_request event ctx)
    | .pullAllRequest _ _ => some (s.handle_pull_request event ctx)
    | .resourceAccepted amount =>
      some ({ s with state :=
        { resources_produced := s.state.resources_produced + amount } }, [])
    | .resourceRejected _ => some (s, [])
    | _ => some (s, [])
  match result with
  | none => none
  | some r => if 0 ≤ r.1.state.resources_produced then some r else none

/-! ### Drain (model/nodes/drain.rs) -/

structure Drain where
  id : String
  state : DrainState
  trigger_mode : TriggerMode
  action : Action
  deriving Repr, DecidableEq

/-- `Drain::handle_pull_any`. -/
def Drain.handle_pull_any (d : Drain) (ctx : ProcessContext) : Drain × List Event :=
  (d, (ctx.inputs_for_port (some "in")).map (fun conn =>
    Event.mk0 d.id none conn.source_id none ctx.current_time
      (.pullRequest (conn.flow_rate.getD 1))))

/-- `Drain::handle_pull_all`; note the code reads `outputs_for_port(Some("in"))`
for its inputs, exactly as drain.rs does. -/
def Drain.handle_pull_all (d : Drain) (ctx : ProcessContext) : Drain × List Event :=
  let inputs := ctx.outputs_for_port (some "in")
  let total_requested := (inputs.map (fun conn => conn.flow_rate.getD 1)).sum
  (d, inputs.map (fun conn =>
    Event.mk0 d.id none conn.source_id none ctx.current_time
      (.pullAllRequest (conn.flow_rate.getD 1) total_requested)))

/-- `Drain::handle_step`. -/
def Drain.handle_step (d : Drain) (ctx : ProcessContext) : Drain × List Event :=
  match d.trigger_mode, d.action with
  | .automatic, .pullAny => d.handle_pull_any ctx
  | .automatic, .pullAll => d.handle_pull_all ctx
  | .automatic, _ => (d, [])
  | _, _ => (d, [])

/-- `Drain::on_event`: a drain consumes any Resource it receives and always
acknowledges it. -/
def Drain.on_event (d : Drain) (event : Event) (ctx : ProcessContext) : Drain × List Event :=
  match event.payload with
  | .step => d.handle_step ctx
  | .resource amount =>
    ({ d with state :=
        { resources_consumed := d.state.resources_consumed + amount } },
     [Event.mk0 d.id none event.source_id none ctx.current_time (.resourceAccepted amount)])
  | _ => (d, [])

/-! ### Delay (model/nodes/delay.rs) -/

structure Delay where
  id : String
  state : DelayState
  trigger_mode : TriggerMode
  action : DelayAction
  release_amount : ℚ
  next_release_time : ℚ
  deriving Repr, DecidableEq

/-- `Delay::can_release_from_queue`. -/
def Delay.can_release_from_queue (d : Delay) (current_time : ℚ) : Prop :=
  d.state.pending_outgoing_resources < d.release_amount ∧
  d.release_amount ≤ d.state.available_resources ∧
  d.next_release_time ≤ current_time

instance (d : Delay) (t : ℚ) : Decidable (d.can_release_from_queue t) := by
  unfold Delay.can_release_from_queue
  infer_instance

/-- `Delay::create_transfer_event`. -/
def Delay.create_transfer_event (d : Delay) (target_id : String)
    (target_port : Option String) (amount : ℚ) (time : ℚ) : Event :=
  Event.mk0 d.id (some "out") target_id (some (target_port.getD "in")) time
    (.resource amount)

/-- Queue-mode arrival bookkeeping inside `Delay::handle_resource`: when the
arriving amount completes the available batch, restart the release clock. -/
def Delay.queueArrival (d1 : Delay) (amount delay t : ℚ) : Delay :=
  if d1.state.available_resources = amount then { d1 with next_release_time := t + delay }
  else d1

/-- Queue-mode release decision inside `Delay::handle_resource`: if a batch
can be released now, commit it as pending and emit the transfer after the
acknowledgement. -/
def Delay.queueReceive (d2 : Delay) (delay t : ℚ) (ack : Event) (tid : String)
    (tport : Option String) : Delay × List Event :=
  if d2.can_release_from_queue t then
    let d3 : Delay := { d2 with
      state := { d2.state with pending_outgoing_resources :=
        d2.state.pending_outgoing_resources + d2.release_amount },
      next_release_time := t + delay }
    (d3, [ack, d3.create_transfer_event tid tport d3.release_amount t])
  else (d2, [ack])

/-- `Delay::handle_resource`.  The entry `assert!(amount >= 0.0)` is modelled
as `none` on failure; zero or multiple output connections reject the
delivery. -/
def Delay.handle_resource (d : Delay) (event : Event) (ctx : ProcessContext)
    (amount : ℚ) : Option (Delay × List Event) :=
  if amount < 0 then none
  else
    match ctx.outputs_for_port (some "out") with
    | [] =>
      some (d, [Event.mk0 d.id none event.source_id none ctx.current_time
        (.resourceRejected amount)])
    | conn :: rest =>
      if rest ≠ [] then
        some (d, [Event.mk0 d.id none event.source_id none ctx.current_time
          (.resourceRejected amount)])
      else
        let d1 : Delay := { d with state := { d.state with
          resources_received := d.state.resources_received + amount } }
        let ack := Event.mk0 d.id none event.source_id none ctx.current_time
          (.resourceAccepted amount)
        let delay := conn.flow_rate.getD 1
        match d.action with
        | .delay =>
          let d2 : Delay := { d1 with state := { d1.state with
            pending_outgoing_resources := d1.state.pending_outgoing_resources + amount } }
          some (d2, [ack, d2.create_transfer_event conn.target_id conn.target_port amount
            (ctx.current_time + delay)])
        | .queue =>
          some ((d1.queueArrival amount delay ctx.current_time).queueReceive delay
            ctx.current_time ack conn.target_id conn.target_port)

/-- `Delay::handle_pull_request`: forwards one PullRequest per input
connection to its source.  delay.rs targets the unit-variant payload of
event.rs; the forwarded request is modelled as carrying the connection's
flow rate, the value the receiver of the unit variant resolves it to. -/
def Delay.handle_pull_request (d : Delay) (ctx : ProcessContext) : Delay × List Event :=
  (d, (ctx.inputs_for_port (some "in")).map (fun conn =>
    Event.mk0 d.id none conn.source_id none ctx.current_time
      (.pullRequest (conn.flow_rate.getD 1))))

/-- `Delay::on_event`; the trailing state `assert!`s are modelled as `none`
on failure. -/
def Delay.on_event (d : Delay) (event : Event) (ctx : ProcessContext) :
    Option (Delay × List Event) :=
  let result : Option (Delay × List Event) :=
    match event.payload with
    | .simulationStart => some (d, [])
    | .simulationEnd => some (d, [])
    | .step =>
      match d.action with
      | .delay => some (d, [])
      | .queue =>
        match ctx.outputs_for_port (some "out") with
        | [] => some (d, [])
        | conn :: rest =>
          let delay := conn.flow_rate.getD 1
          if rest = [] ∧ d.can_release_from_queue ctx.current_time then
            let d2 : Delay := { d with
              state := { d.state with pending_outgoing_resources :=
                d.state.pending_outgoing_resources + d.release_amount },
              next_release_time := ctx.current_time + delay }
            some (d2, [d2.create_transfer_event conn.target_id conn.target_port
              d2.release_amount ctx.current_time])
          else some (d, [])
    | .pullRequest _ => some (d.handle_pull_request ctx)
    | .pullAllRequest _ _ => some (d.handle_pull_request ctx)
    | .resource amount => d.handle_resource event ctx amount
    | .resourceAccepted amount =>
      some ({ d with state := { d.state with
        pending_outgoing_resources := d.state.pending_outgoing_resources - amount,
        resources_released := d.state.resources_released + amount } }, [])
    | .resourceRejected amount =>
      some ({ d with state := { d.state with
        pending_outgoing_resources := d.state.pending_outgoing_resources - amount } }, [])
    | _ => some (d, [])
  match result with
  | none => none
  | some r =>
    if 0 ≤ r.1.state.resources_received ∧ 0 ≤ r.1.state.resources_released ∧
       0 ≤ r.1.state.pending_outgoing_resources ∧ 0 ≤ r.1.state.current_resources ∧
       0 ≤ r.1.state.available_resources then
      some r
    else none

/-! ### Stepper (model/nodes/stepper.rs) -/

structure Stepper where
  id : String
  state : StepperState
  dt : ℚ
  trigger_mode : TriggerMode
  deriving Repr, DecidableEq

/-- `Stepper::on_event`: on SimulationStart it emits a broadcast Step at the
current time; on Step, one at `current_time + dt`; otherwise nothing. -/
def Stepper.on_event (st : Stepper) (event : Event) (ctx : ProcessContext) :
    Stepper × List Event :=
  match event.payload with
  | .simulationStart =>
    (st, [Event.mk0 st.id (some "step") "broadcast" none ctx.current_time .step])
  | .step =>
    (st, [Event.mk0 st.id (some "step") "broadcast" none (ctx.current_time + st.dt) .step])
  | _ => (st, [])

/-! ### Process envelope (model/process.rs, model/process_trait.rs) -/

/-- The closed set of process kinds used by the engine. -/
inductive Proc where
  | source (s : Source)
  | pool (p : Pool)
  | drain (d : Drain)
  | delay (d : Delay)
  | stepper (st : Stepper)
  deriving Repr, DecidableEq

/-- `Processor::id`. -/
def Proc.id : Proc → String
  | .source s => s.id
  | .pool p => p.id
  | .drain d => d.id
  | .delay d => d.id
  | .stepper st => st.id

/-- `Processor::get_input_ports`. -/
def Proc.get_input_ports : Proc → List String
  | .source _ => []
  | .pool _ => ["in"]
  | .drain _ => ["in"]
  | .delay _ => ["in"]
  | .stepper _ => ["step"]

/-- `Processor::get_output_ports`. -/
def Proc.get_output_ports : Proc → List String
  | .source _ => ["out"]
  | .pool _ => ["out"]
  | .drain _ => []
  | .delay _ => ["out"]
  | .stepper _ => ["step"]

/-- `Processor::on_event`, dispatched over the process kind; `none` models a
panic inside the handler. -/
def Proc.on_event (p : Proc) (event : Event) (ctx : ProcessContext) :
    Option (Proc × List Event) :=
  match p with
  | .source s => (s.on_event event ctx).map (fun r => (.source r.1, r.2))
  | .pool q =>
    let r := q.on_event event ctx
    some (.pool r.1, r.2)
  | .drain d =>
    let r := d.on_event event ctx
    some (.drain r.1, r.2)
  | .delay d => (d.on_event event ctx).map (fun r => (.delay r.1, r.2))
  | .stepper st =>
    let r := st.on_event event ctx
    some (.stepper r.1, r.2)

/-! ### Intra-batch event priority (model/nodes/event_priority.rs) -/

def isStepPayload : EventPayload → Bool
  | .step => true
  | _ => false

def isTriggerPayload : EventPayload → Bool
  | .trigger => true
  | _ => false

def isPullPayload : EventPayload → Bool
  | .pullRequest _ => true
  | _ => false

def isPullAllPayload : EventPayload → Bool
  | .pullAllRequest _ _ => true
  | _ => false

def isResourcePayload : EventPayload → Bool
  | .resource _ => true
  | _ => false

def isOtherPayload (pl : EventPayload) : Bool :=
  !(isStepPayload pl || isTriggerPayload pl || isPullPayload pl ||
    isPullAllPayload pl || isResourcePayload pl)

/-- Sort key used by `process_events_with_priority` for pull and resource
events: the sequence number of the input connection (port "in") whose source
is the event's source, defaulting to `u64::MAX`. -/
def connSeqKey (ctx : ProcessContext) (e : Event) : ℕ :=
  (((ctx.inputs_for_port (some "in")).find?
      (fun conn => conn.source_id == e.source_id)).map
    (fun conn => conn.sequence_number)).getD (2 ^ 64 - 1)

/-- Insert an event into a key-sorted list after every entry whose key is
less than or equal to its own (the stable insertion step). -/
def insertByKey (key : Event → ℕ) (e : Event) : List Event → List Event
  | [] => [e]
  | f :: fs => if key f ≤ key e then f :: insertByKey key e fs else e :: f :: fs

/-- Stable sort by connection sequence number (Rust `sort_by_key` is stable):
left-to-right insertion, each event placed after equal keys. -/
def sortBySeqKey (ctx : ProcessContext) (events : List Event) : List Event :=
  events.foldl (fun acc e => insertByKey (connSeqKey ctx) e acc) []

/-- The dispatch order of `process_events_with_priority`: events grouped by
payload class (Step, Trigger, PullRequest, PullAllRequest, Resource, other),
the pull and resource classes sorted by input-connection sequence number. -/
def priorityOrder (ctx : ProcessContext) (events : List Event) : List Event :=
  events.filter (fun e => isStepPayload e.payload)
    ++ events.filter (fun e => isTriggerPayload e.payload)
    ++ sortBySeqKey ctx (events.filter (fun e => isPullPayload e.payload))
    ++ sortBySeqKey ctx (events.filter (fun e => isPullAllPayload e.payload))
    ++ sortBySeqKey ctx (events.filter (fun e => isResourcePayload e.payload))
    ++ events.filter (fun e => isOtherPayload e.payload)

/-- Sequentially feed events to a handler, concatenating the emitted events;
this is the default `Processor::on_events` loop. -/
def foldOnEvents (f : Proc → Event → ProcessContext → Option (Proc × List Event))
    (ctx : ProcessContext) (p : Proc) : List Event → Option (Proc × List Event)
  | [] => some (p, [])
  | e :: rest =>
    match f p e ctx with
    | none => none
    | some r =>
      match foldOnEvents f ctx r.1 rest with
      | none => none
      | some r2 => some (r2.1, r.2 ++ r2.2)

/-- `process_events_with_priority`: dispatch every event of the batch, in
priority order, to the handler. -/
def processEventsWithPriority (ctx : ProcessContext) (p : Proc) (events : List Event) :
    Option (Proc × List Event) :=
  foldOnEvents Proc.on_event ctx p (priorityOrder ctx events)

/-- `Processor::on_events`: Source and Delay override it with
`process_events_with_priority`; Pool, Drain and Stepper use the default
sequential loop (process_trait.rs). -/
def Proc.on_events (p : Proc) (events : List Event) (ctx : ProcessContext) :
    Option (Proc × List Event) :=
  match p with
  | .source _ => processEventsWithPriority ctx p events
  | .delay _ => processEventsWithPriority ctx p events
  | _ => foldOnEvents Proc.on_event ctx p events

/-! ### Error taxonomy (utils/errors.rs; `ConnectionNotFound` is the variant
simulation.rs constructs for unknown connections) -/

inductive SimulationError where
  | duplicateProcess (id : String)
  | invalidPort (process : String) (port : String) (port_type : String)
  | invalidDt (dt : ℚ)
  | noEvents
  | other (msg : String)
  | processNotFound (id : String)
  | connectionNotFound (id : String)
  deriving Repr, DecidableEq

instance {ε α : Type} [DecidableEq ε] [DecidableEq α] : DecidableEq (Except ε α) :=
  fun x y =>
    match x, y with
    | .ok a, .ok b =>
      if h : a = b then .isTrue (by rw [h]) else .isFalse (by intro hc; cases hc; exact h rfl)
    | .ok _, .error _ => .isFalse (by intro hc; cases hc)
    | .error _, .ok _ => .isFalse (by intro hc; cases hc)
    | .error a, .error b =>
      if h : a = b then .isTrue (by rw [h]) else .isFalse (by intro hc; cases hc; exact h rfl)

/-! ### Association-list model of `HashMap` -/

/-- `HashMap::get`. -/
def alGet {β : Type} (m : List (String × β)) (k : String) : Option β :=
  (m.find? (fun kv => kv.1 == k)).map (fun kv => kv.2)

/-- `HashMap::insert`: replace the value at the key, or add the entry. -/
def alSet {β : Type} : List (String × β) → String → β → List (String × β)
  | [], k, v => [(k, v)]
  | kv :: rest, k, v =>
    if kv.1 == k then (k, v) :: rest else kv :: alSet rest k v

/-- One process's connections, grouped by port
(`HashMap<Option<PortId>, Vec<Connection>>`). -/
abbrev PortMap := List (Option String × List Connection)

/-- Connection index of the `SimulationContext`
(`HashMap<ProcessId, HashMap<Option<PortId>, Vec<Connection>>>`). -/
abbrev IoMap := List (String × PortMap)

/-- `entry(port).or_default().push(connection)`. -/
def portMapAdd : PortMap → Option String → Connection → PortMap
  | [], port, c => [(port, [c])]
  | pr :: rest, port, c =>
    if pr.1 == port then (pr.1, pr.2 ++ [c]) :: rest else pr :: portMapAdd rest port c

/-- `entry(key).or_default().entry(port).or_default().push(connection)`. -/
def ioMapAdd : IoMap → String → Option String → Connection → IoMap
  | [], key, port, c => [(key, [(port, [c])])]
  | kv :: rest, key, port, c =>
    if kv.1 == key then (kv.1, portMapAdd kv.2 port c) :: rest
    else kv :: ioMapAdd rest key port c

/-! ### SimulationContext (simulator/simulation_context.rs) -/

structure SimulationContext where
  current_step : ℕ
  current_time : ℚ
  dt : ℚ
  input_map : IoMap
  output_map : IoMap
  deriving Repr, DecidableEq

/-- `SimulationContext::default`. -/
def SimulationContext.default : SimulationContext :=
  { current_step := 0, current_time := 0, dt := 1, input_map := [], output_map := [] }

/-- `SimulationContext::process_inputs`: all input connections of a process,
flattened over its port groups. -/
def SimulationContext.process_inputs (c : SimulationContext) (id : String) :
    List Connection :=
  (((alGet c.input_map id).getD []).map (fun pr => pr.2)).flatten

/-- `SimulationContext::process_outputs`. -/
def SimulationContext.process_outputs (c : SimulationContext) (id : String) :
    List Connection :=
  (((alGet c.output_map id).getD []).map (fun pr => pr.2)).flatten

/-- `SimulationContext::context_for_process`. -/
def SimulationContext.context_for_process (c : SimulationContext) (id : String) :
    ProcessContext :=
  { current_step := c.current_step, current_time := c.current_time,
    inputs := c.process_inputs id, outputs := c.process_outputs id }

/-! ### Simulation (simulator/simulation.rs) -/

/-- Scheduler state.  `processes` models the process `HashMap` as an
association list; `proc_order` records the iteration order of that map
(unspecified in Rust), which `process_broadcast_event` uses. -/
structure Simulation where
  processes : List (String × Proc)
  proc_order : List String
  context : SimulationContext
  event_queue : List Event
  event_sequence_number : ℕ
  connection_sequence_number : ℕ
  deriving Repr, DecidableEq

/-- `Simulation::get_process`. -/
def Simulation.get_process (sim : Simulation) (id : String) :
    Except SimulationError Proc :=
  match alGet sim.processes id with
  | some p => .ok p
  | none => .error (.processNotFound id)

/-- `Simulation::add_process`. -/
def Simulation.add_process (sim : Simulation) (p : Proc) :
    Except SimulationError Simulation :=
  if (alGet sim.processes p.id).isSome then .error (.duplicateProcess p.id)
  else .ok { sim with processes := sim.processes ++ [(p.id, p)],
                      proc_order := sim.proc_order ++ [p.id] }

/-- `Simulation::update_process`: unconditionally inserts under the `id`
argument and returns `Ok`. -/
def Simulation.update_process (sim : Simulation) (id : String) (p : Proc) :
    Except SimulationError Simulation :=
  .ok { sim with processes := alSet sim.processes id p,
                 proc_order := if (alGet sim.processes id).isSome then sim.proc_order
                               else sim.proc_order ++ [id] }

/-- `Simulation::remove_process`. -/
def Simulation.remove_process (sim : Simulation) (id : String) :
    Except SimulationError Simulation :=
  match alGet sim.processes id with
  | some _ => .ok { sim with processes := sim.processes.eraseP (fun kv => kv.1 == id),
                             proc_order := sim.proc_order.erase id }
  | none => .error (.processNotFound id)

/-- `Simulation::validate_connection`: source and target processes must exist
and declare the named ports. -/
def Simulation.validate_connection (sim : Simulation) (c : Connection) :
    Except SimulationError Unit :=
  match alGet sim.processes c.source_id with
  | none => .error (.processNotFound c.source_id)
  | some sp =>
    match (match c.source_port with
           | some port =>
             if port ∈ sp.get_output_ports then Except.ok ()
             else Except.error (SimulationError.invalidPort c.source_id port "output")
           | none => Except.ok ()) with
    | .error e => .error e
    | .ok _ =>
      match alGet sim.processes c.target_id with
      | none => .error (.processNotFound c.target_id)
      | some tp =>
        match c.target_port with
        | some port =>
          if port ∈ tp.get_input_ports then .ok ()
          else .error (.invalidPort c.target_id port "input")
        | none => .ok ()

/-- `Simulation::add_connection_to_io_maps`. -/
def Simulation.add_connection_to_io_maps (sim : Simulation) (c : Connection) : Simulation :=
  { sim with context := { sim.context with
      input_map := ioMapAdd sim.context.input_map c.target_id c.target_port c,
      output_map := ioMapAdd sim.context.output_map c.source_id c.source_port c } }

/-- `Simulation::add_connection`: validates, assigns the next connection
sequence number, and indexes the connection. -/
def Simulation.add_connection (sim : Simulation) (c : Connection) :
    Except SimulationError Simulation :=
  match sim.validate_connection c with
  | .error e => .error e
  | .ok _ =>
    let c2 := { c with sequence_number := sim.connection_sequence_number }
    .ok (({ sim with
        connection_sequence_number := sim.connection_sequence_number + 1 }).add_connection_to_io_maps c2)

/-- `Simulation::remove_connection`: removes the first occurrence of the id
from every port vector of both maps; errors if no occurrence was found. -/
def Simulation.remove_connection (sim : Simulation) (cid : String) :
    Except SimulationError Simulation :=
  let foundIn : IoMap → Bool := fun m =>
    m.any (fun kv => kv.2.any (fun pr => pr.2.any (fun con => con.id == cid)))
  let rm : IoMap → IoMap := fun m =>
    m.map (fun kv => (kv.1, kv.2.map (fun pr => (pr.1, pr.2.eraseP (fun con => con.id == cid)))))
  if foundIn sim.context.input_map || foundIn sim.context.output_map then
    .ok { sim with context := { sim.context with
        input_map := rm sim.context.input_map,
        output_map := rm sim.context.output_map } }
  else .error (.connectionNotFound cid)

/-- `Simulation::get_connection`.  Exactly as the code does, this looks the
connection id up as a key of `input_map` / `output_map`, although those maps
are keyed by process id. -/
def Simulation.get_connection (sim : Simulation) (cid : String) :
    Except SimulationError Connection :=
  match (alGet sim.context.input_map cid).bind
      (fun pm => ((pm.map (fun pr => pr.2)).flatten).find? (fun con => con.id == cid)) with
  | some c => .ok c
  | none =>
    match (alGet sim.context.output_map cid).bind
        (fun pm => ((pm.map (fun pr => pr.2)).flatten).find? (fun con => con.id == cid)) with
    | some c => .ok c
    | none => .error (.connectionNotFound cid)

/-- `Simulation::update_connection`: validate the replacement, copy the
stored connection's sequence number, remove the old connection, re-index the
new one. -/
def Simulation.update_connection (sim : Simulation) (cid : String) (c : Connection) :
    Except SimulationError Simulation :=
  match sim.validate_connection c with
  | .error e => .error e
  | .ok _ =>
    match sim.get_connection cid with
    | .error e => .error e
    | .ok existing =>
      let c2 := { c with sequence_number := existing.sequence_number }
      match sim.remove_connection cid with
      | .error e => .error e
      | .ok sim2 => .ok (sim2.add_connection_to_io_maps c2)

/-- `Simulation::validate_event`: broadcast targets and the synthetic
"simulation" source are exempt; otherwise both endpoints must exist and
declared ports must match. -/
def Simulation.validate_event (sim : Simulation) (e : Event) :
    Except SimulationError Unit :=
  if e.target_id == "broadcast" || e.source_id == "simulation" then .ok ()
  else
    match alGet sim.processes e.target_id with
    | none => .error (.processNotFound e.target_id)
    | some tp =>
      match (match e.target_port with
             | some port =>
               if port ∈ tp.get_input_ports then Except.ok ()
               else Except.error (SimulationError.invalidPort e.target_id port "input")
             | none => Except.ok ()) with
      | .error err => .error err
      | .ok _ =>
        match alGet sim.processes e.source_id with
        | none => .error (.processNotFound e.source_id)
        | some sp =>
          match e.source_port with
          | some port =>
            if port ∈ sp.get_output_ports then .ok ()
            else .error (.invalidPort e.source_id port "output")
          | none => .ok ()

/-- `Simulation::schedule_event`: validate, assign the next event sequence
number, push into the queue. -/
def Simulation.schedule_event (sim : Simulation) (e : Event) :
    Except SimulationError Simulation :=
  match sim.validate_event e with
  | .error err => .error err
  | .ok _ =>
    .ok { sim with
      event_queue := sim.event_queue ++ [{ e with sequence_number := sim.event_sequence_number }],
      event_sequence_number := sim.event_sequence_number + 1 }

/-- `Simulation::schedule_events`. -/
def Simulation.schedule_events (sim : Simulation) :
    List Event → Except SimulationError Simulation
  | [] => .ok sim
  | e :: rest =>
    match sim.schedule_event e with
    | .error err => .error err
    | .ok sim2 => sim2.schedule_events rest

/-! ### The event min-heap -/

/-- Strict order of the `Ord for Event` instance (event.rs): earlier time
first, ties broken by lower sequence number. -/
def keyLt (a b : Event) : Prop :=
  a.time < b.time ∨ (a.time = b.time ∧ a.sequence_number < b.sequence_number)

instance (a b : Event) : Decidable (keyLt a b) := by
  unfold keyLt
  infer_instance

/-- Select the minimum event under `keyLt` together with the remaining
events; models `BinaryHeap::pop` on the heap contents. -/
def selectMin (e : Event) : List Event → Event × List Event
  | [] => (e, [])
  | f :: fs =>
    let r := selectMin f fs
    if keyLt r.1 e then (r.1, e :: r.2) else (e, r.1 :: r.2)

/-- `BinaryHeap::pop` on the modelled queue. -/
def popMin : List Event → Option (Event × List Event)
  | [] => none
  | e :: es => some (selectMin e es)

theorem selectMin_snd_length (e : Event) (es : List Event) :
    (selectMin e es).2.length = es.length := by
  induction es generalizing e with
  | nil => rfl
  | cons f fs ih =>
    simp only [selectMin]
    split
    · simp [ih]
    · simp [ih]

theorem popMin_length {q : List Event} {e : Event} {rest : List Event}
    (h : popMin q = some (e, rest)) : rest.length + 1 = q.length := by
  cases q with
  | nil => simp [popMin] at h
  | cons a as =>
    simp only [popMin, Option.some.injEq] at h
    have hlen := selectMin_snd_length a as
    rw [show rest = (selectMin a as).2 by rw [h]] at *
    simp [hlen]

/-- Fuel-indexed loop of `collect_simultaneous_events`; each iteration pops
one event, so fuel `queue.length` makes the fuel never bind. -/
def collectSimultaneousFuel : ℕ → ℚ → List Event → List Event →
    List Event × List Event
  | 0, _, queue, acc => (acc, queue)
  | fuel + 1, target_time, queue, acc =>
    match popMin queue with
    | none => (acc, queue)
    | some (e, rest) =>
      if |e.time - target_time| ≤ epsF then
        collectSimultaneousFuel fuel target_time rest (acc ++ [e])
      else (acc, queue)

/-- `Simulation::collect_simultaneous_events`: keep popping while the next
event's time is within `f64::EPSILON` of the target time. -/
def collectSimultaneous (target_time : ℚ) (queue : List Event) (acc : List Event) :
    List Event × List Event :=
  collectSimultaneousFuel queue.length target_time queue acc

/-! ### Event delivery -/

/-- One pass of `process_broadcast_event`: deliver the event to every
process, in the map's iteration order, concatenating the emitted events. -/
def broadcastGo (e : Event) : List String → Simulation → List Event →
    Option (Simulation × List Event)
  | [], sim, acc => some (sim, acc)
  | id :: rest, sim, acc =>
    match alGet sim.processes id with
    | none => broadcastGo e rest sim acc
    | some p =>
      match p.on_events [e] (sim.context.context_for_process id) with
      | none => none
      | some r =>
        broadcastGo e rest { sim with processes := alSet sim.processes id r.1 } (acc ++ r.2)

/-- `Simulation::process_broadcast_event`. -/
def Simulation.process_broadcast_event (sim : Simulation) (e : Event) :
    Option (Simulation × List Event) :=
  broadcastGo e sim.proc_order sim []

/-- `Simulation::process_event`: deliver a targeted event to its process. -/
def Simulation.process_event (sim : Simulation) (e : Event) :
    Option (Simulation × List Event) :=
  match alGet sim.processes e.target_id with
  | none => none
  | some p =>
    match p.on_events [e] (sim.context.context_for_process e.target_id) with
    | none => none
    | some r =>
      some ({ sim with processes := alSet sim.processes e.target_id r.1 }, r.2)

/-- `Simulation::group_events_by_target`: the distinct target ids in order of
first occurrence (one possible iteration order of the grouping `HashMap`). -/
def groupTargets (events : List Event) : List String :=
  events.foldl (fun ks e => if e.target_id ∈ ks then ks else ks ++ [e.target_id]) []

/-- Broadcast branch of `process_event_batch`: deliver each broadcast event
of the group to every process, concatenating emissions. -/
def broadcastBatch : List Event → Simulation → List Event →
    Option (Simulation × List Event)
  | [], sim, acc => some (sim, acc)
  | e :: rest, sim, acc =>
    match sim.process_broadcast_event e with
    | none => none
    | some r => broadcastBatch rest r.1 (acc ++ r.2)

/-- Targeted branch of `process_event_batch`: hand the whole group to the
target's `on_events`. -/
def targetBatch (sim : Simulation) (key : String) (tevents : List Event) :
    Option (Simulation × List Event) :=
  match alGet sim.processes key with
  | none => none
  | some p =>
    match p.on_events tevents (sim.context.context_for_process key) with
    | none => none
    | some r =>
      some ({ sim with processes := alSet sim.processes key r.1 }, r.2)

/-- Group loop of `process_event_batch`: for each target group, dispatch the
group, schedule the emitted events, and record the group as processed. -/
def processGroups (events : List Event) : List String → Simulation → List Event →
    Option (Simulation × List Event)
  | [], sim, processed => some (sim, processed)
  | key :: rest, sim, processed =>
    let target_events := events.filter (fun e => e.target_id == key)
    match (if key == "broadcast" then broadcastBatch target_events sim []
           else targetBatch sim key target_events) with
    | none => none
    | some r =>
      match r.1.schedule_events r.2 with
      | .error _ => none
      | .ok sim3 => processGroups events rest sim3 (processed ++ target_events)

/-- `Simulation::process_event_batch`. -/
def Simulation.process_event_batch (sim : Simulation) (events : List Event) :
    Option (Simulation × List Event) :=
  processGroups events (groupTargets events) sim []

/-- The synthetic lifecycle broadcast events of the scheduler. -/
def lifecycleEvent (payload : EventPayload) (time : ℚ) : Event :=
  Event.mk0 "simulation" none "broadcast" none time payload

/-- Start-of-run phase shared by `next` and `step`: while `current_step` is
still 0, broadcast SimulationStart and schedule the responses. -/
def Simulation.startPhase (sim : Simulation) : Option Simulation :=
  if sim.context.current_step == 0 then
    match sim.process_broadcast_event
        (lifecycleEvent .simulationStart sim.context.current_time) with
    | none => none
    | some r =>
      match r.1.schedule_events r.2 with
      | .error _ => none
      | .ok sim2 => some sim2
  else some sim

/-- Empty-queue phase shared by `next` and `step`: broadcast SimulationEnd,
discarding whatever the processes return. -/
def Simulation.endPhase (sim : Simulation) : Option Simulation :=
  if sim.event_queue.isEmpty then
    match sim.process_broadcast_event
        (lifecycleEvent .simulationEnd sim.context.current_time) with
    | none => none
    | some r => some r.1
  else some sim

/-- `Simulation::next` (simulation.rs): process exactly one queued event,
with SimulationStart / SimulationEnd bookkeeping. -/
def Simulation.next (sim0 : Simulation) : Option (Simulation × List Event) :=
  match sim0.startPhase with
  | none => none
  | some sim1 =>
    match popMin sim1.event_queue with
    | none =>
      match sim1.endPhase with
      | none => none
      | some sim2 => some (sim2, [])
    | some (e, rest) =>
      let bump : ℕ :=
        if epsF < |e.time - sim1.context.current_time| then 1 else 0
      let sim2 : Simulation := { sim1 with
        event_queue := rest,
        context := { sim1.context with
          current_step := sim1.context.current_step + bump,
          current_time := e.time } }
      match (if e.target_id == "broadcast" then sim2.process_broadcast_event e
             else sim2.process_event e) with
      | none => none
      | some r =>
        match r.1.schedule_events r.2 with
        | .error _ => none
        | .ok sim4 =>
          match sim4.endPhase with
          | none => none
          | some sim5 => some (sim5, [e])

/-- Iterate `next`, concatenating the processed events. -/
def Simulation.next_run : ℕ → Simulation → Option (Simulation × List Event)
  | 0, sim => some (sim, [])
  | k + 1, sim =>
    match sim.next with
    | none => none
    | some r =>
      match Simulation.next_run k r.1 with
      | none => none
      | some r2 => some (r2.1, r.2 ++ r2.2)

/-- Inner batch loop of `Simulation::step`: process the current batch, then
keep collecting further same-time batches while any remain; `fuel` bounds the
number of iterations (the Rust loop can diverge on zero-delay cycles). -/
def stepLoop : ℕ → Simulation → List Event → List Event →
    Option (Simulation × List Event)
  | 0, _, _, _ => none
  | fuel + 1, sim, batch, processed =>
    match sim.process_event_batch batch with
    | none => none
    | some r =>
      let processed2 := processed ++ r.2
      match popMin r.1.event_queue with
      | none => some (r.1, processed2)
      | some (e, rest) =>
        if epsF < |e.time - r.1.context.current_time| then some (r.1, processed2)
        else
          let col := collectSimultaneous e.time rest [e]
          stepLoop fuel { r.1 with event_queue := col.2 } col.1 processed2

/-- `Simulation::step` (simulation.rs): process every event of the next
timestep (batched per target), with lifecycle bookkeeping. -/
def Simulation.step_run (fuel : ℕ) (sim0 : Simulation) :
    Option (Simulation × List Event) :=
  match sim0.startPhase with
  | none => none
  | some sim1 =>
    match popMin sim1.event_queue with
    | none =>
      match sim1.process_broadcast_event
          (lifecycleEvent .simulationEnd sim1.context.current_time) with
      | none => none
      | some r => some (r.1, [])
    | some (e, rest) =>
      let sim2 : Simulation :=
        if epsF < |e.time - sim1.context.current_time| then
          { sim1 with context := { sim1.context with
              current_step := sim1.context.current_step + 1,
              current_time := e.time } }
        else sim1
      let col := collectSimultaneous e.time rest [e]
      match stepLoop fuel { sim2 with event_queue := col.2 } col.1 [] with
      | none => none
      | some r =>
        match r.1.endPhase with
        | none => none
        | some sim3 => some (sim3, r.2)

/-- The empty scheduler (`Simulation::new` before registration). -/
def Simulation.empty : Simulation :=
  { processes := [], proc_order := [], context := SimulationContext.default,
    event_queue := [], event_sequence_number := 0, connection_sequence_number := 0 }

/-- `Simulation::new`: register the processes, then the connections; no start
event is emitted yet. -/
def Simulation.new (procs : List Proc) (conns : List Connection) :
    Except SimulationError Simulation :=
  match procs.foldlM (fun (s : Simulation) p => s.add_process p) Simulation.empty with
  | .error e => .error e
  | .ok s => conns.foldlM (fun (s : Simulation) c => s.add_connection c) s

/-! ### Resource bookkeeping quantities (the conservation inventory) -/

/-- `resources_produced` contribution of a process (sources only). -/
def Proc.producedTerm : Proc → ℚ
  | .source s => s.state.resources_produced
  | _ => 0

/-- `resources_consumed` contribution of a process (drains only). -/
def Proc.consumedTerm : Proc → ℚ
  | .drain d => d.state.resources_consumed
  | _ => 0

/-- In-pool resources of a process (pools only). -/
def Proc.poolTerm : Proc → ℚ
  | .pool p => p.state.resources
  | _ => 0

/-- In-delay `current_resources` of a process (delays only). -/
def Proc.delayTerm : Proc → ℚ
  | .delay d => d.state.current_resources
  | _ => 0

/-- `pending_outgoing_resources` of a process (pools and delays). -/
def Proc.pendingTerm : Proc → ℚ
  | .pool p => p.state.pending_outgoing_resources
  | .delay d => d.state.pending_outgoing_resources
  | _ => 0

/-- Amount carried by a Resource event (0 for other payloads). -/
def Event.resourceAmount (e : Event) : ℚ :=
  match e.payload with
  | .resource a => a
  | _ => 0

/-- Amount carried by a ResourceAccepted event (0 for other payloads). -/
def Event.acceptedAmount (e : Event) : ℚ :=
  match e.payload with
  | .resourceAccepted a => a
  | _ => 0

/-- Sum a per-process quantity over the process map. -/
def sumOver (sim : Simulation) (f : Proc → ℚ) : ℚ :=
  (sim.processes.map (fun kv => f kv.2)).sum

/-- The claim's `in_flight`: outstanding `pending_outgoing_resources` minus
the amounts carried by Resource events in the queue (every Resource event in
the queue is by construction still unacknowledged: its Accept/Reject is
produced only when it is delivered). -/
def claimedInFlight (sim : Simulation) : ℚ :=
  sumOver sim Proc.pendingTerm - (sim.event_queue.map Event.resourceAmount).sum

/-- Left-hand side of the claimed conservation equation. -/
def claimLHS (sim : Simulation) : ℚ :=
  sumOver sim Proc.producedTerm - sumOver sim Proc.consumedTerm

/-- Right-hand side of the claimed conservation equation. -/
def claimRHS (sim : Simulation) : ℚ :=
  sumOver sim Proc.poolTerm + sumOver sim Proc.delayTerm + claimedInFlight sim

/-- The quantity the scheduler actually conserves:
`produced − consumed − pools − delays + Σ(queued ResourceAccepted amounts)`.
Pending amounts and queued Resource amounts cancel out and do not appear. -/
def balance (sim : Simulation) : ℚ :=
  sumOver sim Proc.producedTerm - sumOver sim Proc.consumedTerm
    - sumOver sim Proc.poolTerm - sumOver sim Proc.delayTerm
    + (sim.event_queue.map Event.acceptedAmount).sum

/-- The resources of the pool registered under `id`, when there is one. -/
def poolResourcesOf (sim : Simulation) (id : String) : Option ℚ :=
  match alGet sim.processes id with
  | some (.pool p) => some p.state.resources
  | _ => none

/-- State after `k` calls of `Simulation::next` (the simulation itself if the
run fails). -/
def nextRunState (sim : Simulation) (k : ℕ) : Simulation :=
  ((sim.next_run k).map (fun r => r.1)).getD sim

/-! ### Association-list lemmas -/

theorem alGet_nil {β : Type} (k : String) : alGet ([] : List (String × β)) k = none := rfl

theorem alGet_cons {β : Type} (kv : String × β) (rest : List (String × β)) (k : String) :
    alGet (kv :: rest) k = if kv.1 = k then some kv.2 else alGet rest k := by
  by_cases h : kv.1 = k
  · unfold alGet
    rw [List.find?_cons_of_pos]
    · simp [h]
    · simp [h]
  · unfold alGet
    rw [List.find?_cons_of_neg]
    · simp [h]
    · simp [h]

theorem alGet_alSet_self {β : Type} (m : List (String × β)) (k : String) (v : β) :
    alGet (alSet m k v) k = some v := by
  induction m with
  | nil => simp [alGet, alSet]
  | cons kv rest ih =>
    by_cases h : kv.1 = k
    · simp [alSet, h, alGet_cons]
    · simp only [alSet, beq_iff_eq, h, if_false]
      rw [alGet_cons, if_neg h]
      exact ih

theorem alGet_alSet_ne {β : Type} (m : List (String × β)) (k k2 : String) (v : β)
    (hne : k2 ≠ k) : alGet (alSet m k v) k2 = alGet m k2 := by
  induction m with
  | nil =>
    show alGet [(k, v)] k2 = none
    rw [alGet_cons, if_neg (Ne.symm hne)]
    rfl
  | cons kv rest ih =>
    by_cases h : kv.1 = k
    · simp only [alSet, beq_iff_eq, h, if_true]
      rw [alGet_cons, alGet_cons, if_neg (by simp [Ne.symm hne]), if_neg (by rw [h]; exact Ne.symm hne)]
    · simp only [alSet, beq_iff_eq, h, if_false]
      rw [alGet_cons, alGet_cons]
      by_cases h2 : kv.1 = k2
      · simp [h2]
      · rw [if_neg h2, if_neg h2]
        exact ih

/-! ### Concrete models used by the claim theorems -/

/-- A default Stepper process with `dt = 1`. -/
def mkStepper (id : String) : Proc :=
  .stepper { id := id, state := { current_step := 0 }, dt := 1,
             trigger_mode := .automatic }

/-- An automatic PushAny source with nothing produced yet. -/
def mkAutoSource (id : String) : Proc :=
  .source { id := id, state := { resources_produced := 0 },
            trigger_mode := .automatic, action := .pushAny }

/-- A passive unbounded pool holding `r` resources. -/
def mkPassivePool (id : String) (r : ℚ) : Proc :=
  .pool { id := id, state := { resources := r, pending_outgoing_resources := 0 },
          trigger_mode := .passive, action := .pullAny, overflow := .block,
          capacity := -1 }

/-- A plain port-to-port connection with flow rate `f`. -/
def mkConn (cid source target : String) (f : ℚ) : Connection :=
  { id := cid, source_id := source, source_port := some "out",
    target_id := target, target_port := some "in", flow_rate := some f,
    sequence_number := 0 }

/-! #### C1: Stepper, automatic Source, passive Pool -/

def simC1 : Simulation :=
  (Simulation.new [mkStepper "stepper", mkAutoSource "S", mkPassivePool "P" 0]
    [mkConn "sp" "S" "P" 1]).toOption.getD Simulation.empty

/-! #### C3: Stepper, two automatic Sources, one capacity-1 Pool -/

def poolC3 : Proc :=
  .pool { id := "P3", state := { resources := 0, pending_outgoing_resources := 0 },
          trigger_mode := .passive, action := .pullAny, overflow := .block,
          capacity := 1 }

def simC3a : Simulation :=
  (Simulation.new [mkStepper "stepper", mkAutoSource "A3", mkAutoSource "B3", poolC3]
    [mkConn "a3" "A3" "P3" 1, mkConn "b3" "B3" "P3" (mkRat 1 2)]).toOption.getD
    Simulation.empty

/-- The same registered model with another iteration order of the process
`HashMap` (Rust leaves that order unspecified and it varies between runs). -/
def simC3b : Simulation :=
  { simC3a with proc_order := ["stepper", "B3", "A3", "P3"] }

/-! #### C4: a Source receiving a Step and a PullRequest in one batch -/

def sourceC4 : Source :=
  { id := "src", state := { resources_produced := 0 },
    trigger_mode := .automatic, action := .pushAny }

def ctxC4 : ProcessContext :=
  { current_step := 1, current_time := 0, inputs := [],
    outputs := [mkConn "c4" "src" "p" 2] }

def stepEvtC4 : Event :=
  { source_id := "stepper", source_port := some "step", target_id := "broadcast",
    target_port := none, time := 0, payload := .step, sequence_number := 3 }

def pullEvtC4 : Event :=
  { source_id := "q", source_port := none, target_id := "src",
    target_port := none, time := 0, payload := .pullRequest 1, sequence_number := 2 }

/-- What the code actually emits for the Step of the C4 batch. -/
def pushOutC4 : Event :=
  Event.mk0 "src" (some "out") "p" (some "in") 0 (.resource 2)

/-- What the code actually emits for the PullRequest of the C4 batch: the
reply, produced in the same invocation. -/
def replyOutC4 : Event :=
  Event.mk0 "src" (some "out") "q" (some "in") 0 (.resource 1)

/-! #### C5: a Pool with all resources already pending -/

def poolC5 : Pool :=
  { id := "sender", state := { resources := 1, pending_outgoing_resources := 1 },
    trigger_mode := .automatic, action := .pushAny, overflow := .block,
    capacity := -1 }

def ctxC5 : ProcessContext :=
  { current_step := 1, current_time := 0, inputs := [],
    outputs := [mkConn "c5" "sender" "recv" 1] }

def stepEvtC5 : Event :=
  { source_id := "stepper", source_port := some "step", target_id := "broadcast",
    target_port := none, time := 0, payload := .step, sequence_number := 1 }

/-! #### C6: the S6 scenario receiver -/

def poolC6 : Pool :=
  { id := "receiver", state := { resources := 9, pending_outgoing_resources := 0 },
    trigger_mode := .passive, action := .pullAny, overflow := .drain,
    capacity := 10 }

def resEvtC6 : Event :=
  { source_id := "sender", source_port := some "out", target_id := "receiver",
    target_port := some "in", time := 0, payload := .resource 5, sequence_number := 0 }

def ctxC6 : ProcessContext :=
  { current_step := 0, current_time := 0, inputs := [], outputs := [] }

/-! #### C7: automatic PushAny pool with two receivers -/

def poolC7A : Proc :=
  .pool { id := "A", state := { resources := 1, pending_outgoing_resources := 0 },
          trigger_mode := .automatic, action := .pushAny, overflow := .block,
          capacity := -1 }

def simC7 : Simulation :=
  (Simulation.new [mkStepper "stepper", poolC7A, mkPassivePool "B" 0, mkPassivePool "C" 0]
    [mkConn "c1" "A" "B" 1, mkConn "c2" "A" "C" 1]).toOption.getD Simulation.empty

/-! #### C8: a Stepper at time 0 with dt = 1 -/

def stepperC8 : Stepper :=
  { id := "stepper", state := { current_step := 0 }, dt := 1,
    trigger_mode := .automatic }

def ctxC8 : ProcessContext :=
  { current_step := 0, current_time := 0, inputs := [], outputs := [] }

def startEvtC8 : Event := lifecycleEvent .simulationStart 0

def stepEvtC8 : Event :=
  Event.mk0 "stepper" (some "step") "broadcast" none 0 .step

/-! #### C9: a registered connection whose id is no process id -/

def simC9 : Simulation :=
  (Simulation.new [mkAutoSource "source", mkPassivePool "target" 0]
    [mkConn "c9" "source" "target" 1]).toOption.getD Simulation.empty

/-- A replacement for connection "c9" that passes validation (same endpoints,
different flow rate). -/
def connC9b : Connection := mkConn "c9" "source" "target" 2

set_option maxRecDepth 16000

/-! ### Claim theorems -/

/-- C10: `Simulation::update_process(id, process)` always returns `Ok` and
unconditionally inserts the given process under the key `id` — it never
returns `ProcessNotFound` when no process with that id exists (it creates a
new entry instead), and it keys the entry by the `id` argument even when
that differs from `process.id()` (the statement quantifies over every
process `p`, whatever its own id); all other entries are unchanged. -/
theorem update_process_always_inserts (sim : Simulation) (id : String) (p : Proc) :
    ∃ sim2, sim.update_process id p = .ok sim2 ∧
      alGet sim2.processes id = some p ∧
      ∀ k, k ≠ id → alGet sim2.processes k = alGet sim.processes k := by
  refine ⟨_, rfl, ?_, ?_⟩
  · exact alGet_alSet_self sim.processes id p
  · intro k hk
    exact alGet_alSet_ne sim.processes id k p hk

/-- C9: the claim fails on the code.  `Simulation::get_connection` looks the
connection id up as a key of the process-id-keyed `input_map` / `output_map`,
so for a registered connection "c9" (between processes "source" and "target")
`update_connection("c9", replacement)` returns `ConnectionNotFound` even
though the replacement passes validation, instead of succeeding and
preserving the sequence number. -/
theorem update_connection_not_found_at_failing_input :
    Simulation.new [mkAutoSource "source", mkPassivePool "target" 0]
        [mkConn "c9" "source" "target" 1] = .ok simC9 ∧
    simC9.validate_connection connC9b = .ok () ∧
    (simC9.context.input_map.map (fun kv =>
        kv.2.map (fun pr => pr.2.map (fun c => c.id)))) = [[["c9"]]] ∧
    simC9.update_connection "c9" connC9b = .error (.connectionNotFound "c9") := by
  refine ⟨by decide, by decide, by decide, by decide⟩

/-- C8 (amended): on `SimulationStart` the Stepper emits exactly one Step
event to target "broadcast" from source port "step" scheduled at
`current_time` (not `current_time + dt`); on `Step` it emits one at
`current_time + dt`; on `SimulationEnd` it emits nothing. -/
theorem stepper_on_event_spec (st : Stepper) (e : Event) (ctx : ProcessContext) :
    (e.payload = .simulationStart →
      st.on_event e ctx =
        (st, [Event.mk0 st.id (some "step") "broadcast" none ctx.current_time .step])) ∧
    (e.payload = .step →
      st.on_event e ctx =
        (st, [Event.mk0 st.id (some "step") "broadcast" none
          (ctx.current_time + st.dt) .step])) ∧
    (e.payload = .simulationEnd → st.on_event e ctx = (st, [])) := by
  refine ⟨fun h => ?_, fun h => ?_, fun h => ?_⟩ <;> simp [Stepper.on_event, h]

/-- C8 witness: the amended behaviour at a concrete Stepper (dt = 1, time 0),
for both the SimulationStart and the Step payload. -/
theorem stepper_on_event_spec_witness :
    Stepper.on_event stepperC8 startEvtC8 ctxC8 =
      (stepperC8, [Event.mk0 "stepper" (some "step") "broadcast" none 0 .step]) ∧
    Stepper.on_event stepperC8 stepEvtC8 ctxC8 =
      (stepperC8, [Event.mk0 "stepper" (some "step") "broadcast" none 1 .step]) := by
  constructor
  · have h := (stepper_on_event_spec stepperC8 startEvtC8 ctxC8).1 rfl
    rw [h]
    decide
  · have h := (stepper_on_event_spec stepperC8 stepEvtC8 ctxC8).2.1 rfl
    rw [h]
    norm_num [ctxC8, stepperC8]

/-- C8 counterexample: the claim as stated is false — handling
`SimulationStart` at time 0 with dt = 1, the Stepper emits its Step event at
time 0, not at `current_time + dt = 1`. -/
theorem stepper_start_time_counterexample :
    (Stepper.on_event stepperC8 startEvtC8 ctxC8).2.map Event.time = [0] ∧
    ctxC8.current_time + stepperC8.dt ≠ (0 : ℚ) := by
  refine ⟨rfl, by decide⟩

/-- C7: the claimed pool invariant is violated on a reachable quiescent
state.  In the model Stepper → Pool A (resources 1, automatic PushAny, two
outgoing connections of flow 1 to pools B and C), one `step()` ends with
`A.resources = −1 < 0`: PushAny commits `min(resources, flow)` per
connection without accounting for pending, both receivers accept, and both
acknowledgements are deducted. -/
theorem pool_negative_resources_reachable :
    Simulation.new [mkStepper "stepper", poolC7A, mkPassivePool "B" 0, mkPassivePool "C" 0]
        [mkConn "c1" "A" "B" 1, mkConn "c2" "A" "C" 1] = .ok simC7 ∧
    (simC7.step_run 10).map (fun r => poolResourcesOf r.1 "A") = some (some (-1)) ∧
    ((-1 : ℚ) < 0) := by
  refine ⟨by decide, by decide, by decide⟩

/-- C5: the claim fails on the code.  A Pool with `resources = 1` and
`pending_outgoing_resources = 1` has `available_resources = 0`, so under the
claim PushAny would emit nothing; the code computes
`push = min(resources, flow_rate) = 1`, emits `Resource(1)` and raises
pending to 2. -/
theorem push_any_ignores_pending_at_failing_input :
    poolC5.state.available_resources = 0 ∧
    (Pool.on_event poolC5 stepEvtC5 ctxC5).2.map Event.resourceAmount = [1] ∧
    (Pool.on_event poolC5 stepEvtC5 ctxC5).1.state.pending_outgoing_resources = 2 := by
  refine ⟨by decide, by decide, by decide⟩

/-- C4 counterexample: the claim as stated is false.  A Source receiving the
batch `[PullRequest, Step]` handles both events in the same `on_events`
invocation: the result contains the push emission for the Step and the
Resource reply to the PullRequest, and the PullRequest event is not returned
to the caller for re-scheduling. -/
theorem step_deferral_counterexample :
    Proc.on_events (.source sourceC4) [pullEvtC4, stepEvtC4] ctxC4 =
      some (.source sourceC4, [pushOutC4, replyOutC4]) ∧
    pullEvtC4 ∉ [pushOutC4, replyOutC4] ∧
    replyOutC4.payload = .resource 1 := by
  refine ⟨by decide, by decide, rfl⟩

/-- C3: the code is not deterministic across runs.  `simC3a` and `simC3b`
register the same processes and connections in the same insertion order and
differ only in the iteration order of the process `HashMap` (which Rust
randomizes per map instance); driving both with one `step()` yields
different final pool contents (1 versus 1/2), because the capacity-1 pool
accepts whichever source's Resource event was enqueued first during the
broadcast. -/
theorem broadcast_order_changes_final_state :
    Simulation.new [mkStepper "stepper", mkAutoSource "A3", mkAutoSource "B3", poolC3]
        [mkConn "a3" "A3" "P3" 1, mkConn "b3" "B3" "P3" (mkRat 1 2)] = .ok simC3a ∧
    simC3b.processes = simC3a.processes ∧
    simC3b.context = simC3a.context ∧
    simC3b.event_queue = simC3a.event_queue ∧
    simC3b.proc_order.Perm simC3a.proc_order ∧
    (simC3a.step_run 10).map (fun r => poolResourcesOf r.1 "P3") = some (some 1) ∧
    (simC3b.step_run 10).map (fun r => poolResourcesOf r.1 "P3") =
      some (some (mkRat 1 2)) := by
  refine ⟨by decide, rfl, rfl, rfl, by decide, by decide, by decide⟩

/-- C1 counterexample: the claimed conservation equation fails at a
reachable quiescent point.  After one `next()` call on the model
Stepper → automatic Source → Pool, the Source's `Resource(1)` event sits
unacknowledged in the queue: nothing has been produced yet
(`resources_produced` is credited only on ResourceAccepted), the pools are
empty and no pending is outstanding, so the claimed right-hand side is
`0 + 0 + (0 − 1) = −1` while the left-hand side is 0 — off by 1, far beyond
the 1e-9 tolerance. -/
theorem claimed_conservation_counterexample :
    Simulation.new [mkStepper "stepper", mkAutoSource "S", mkPassivePool "P" 0]
        [mkConn "sp" "S" "P" 1] = .ok simC1 ∧
    (simC1.next_run 1).isSome = true ∧
    claimLHS (nextRunState simC1 1) = 0 ∧
    claimRHS (nextRunState simC1 1) = -1 ∧
    consTol < |claimLHS (nextRunState simC1 1) - claimRHS (nextRunState simC1 1)| := by
  refine ⟨by decide, by decide, by decide, by decide, by decide⟩

/-- C6: Pool partial acceptance with `overflow = Drain`.  For any Pool with
`capacity ≥ 0` and `overflow = Drain` receiving `Resource(a)` with
`resources + a > capacity`, the code accepts `acc = max(0, capacity −
resources)`, adds it to `resources`, and emits `ResourceAccepted(acc)` when
`acc > 0` followed by `ResourceRejected(a − acc)` when the remainder is
positive. -/
theorem pool_overflow_drain_partial_acceptance (p : Pool) (e : Event)
    (ctx : ProcessContext) (a : ℚ) (hpay : e.payload = .resource a)
    (hcap : 0 ≤ p.capacity) (hover : p.overflow = .drain)
    (hexceed : p.capacity < p.state.resources + a) :
    Pool.on_event p e ctx =
      ({ p with state := { p.state with
          resources := p.state.resources + max (p.capacity - p.state.resources) 0 } },
       (if 0 < max (p.capacity - p.state.resources) 0 then
          [Event.mk0 p.id none e.source_id none ctx.current_time
            (.resourceAccepted (max (p.capacity - p.state.resources) 0))]
        else []) ++
       (if 0 < a - max (p.capacity - p.state.resources) 0 then
          [Event.mk0 p.id none e.source_id none ctx.current_time
            (.resourceRejected (a - max (p.capacity - p.state.resources) 0))]
        else [])) := by
  have hnot : ¬(p.capacity < 0 ∨ p.state.resources + a ≤ p.capacity) := by
    push_neg
    exact ⟨hcap, hexceed⟩
  simp only [Pool.on_event, hpay, Pool.handle_resource, if_neg hnot, hover]

/-- C6 witness: the concrete S6 scenario — capacity 10, resources 9,
overflow Drain, incoming `Resource(5)`: the pool ends at 10 and emits
`ResourceAccepted(1)` then `ResourceRejected(4)`. -/
theorem pool_overflow_drain_partial_acceptance_witness :
    Pool.on_event poolC6 resEvtC6 ctxC6 =
      ({ poolC6 with state := { poolC6.state with resources := 10 } },
       [Event.mk0 "receiver" none "sender" none 0 (.resourceAccepted 1),
        Event.mk0 "receiver" none "sender" none 0 (.resourceRejected 4)]) := by
  have h := pool_overflow_drain_partial_acceptance poolC6 resEvtC6 ctxC6 5 rfl
    (by decide) rfl (by decide)
  rw [h]
  decide

/-! ### C4 support: the priority batcher dispatches a permutation -/

theorem insertByKey_perm (key : Event → ℕ) (e : Event) (l : List Event) :
    (insertByKey key e l).Perm (e :: l) := by
  induction l with
  | nil => exact List.Perm.refl _
  | cons f fs ih =>
    simp only [insertByKey]
    split
    · exact (ih.cons f).trans (List.Perm.swap e f fs)
    · exact List.Perm.refl _

theorem foldl_insertByKey_perm (key : Event → ℕ) (l acc : List Event) :
    (l.foldl (fun acc e => insertByKey key e acc) acc).Perm (acc ++ l) := by
  induction l generalizing acc with
  | nil => simp
  | cons e rest ih =>
    simp only [List.foldl_cons]
    refine (ih (insertByKey key e acc)).trans ?_
    refine (((insertByKey_perm key e acc).append_right rest).trans ?_)
    exact List.perm_middle.symm

theorem sortBySeqKey_perm (ctx : ProcessContext) (l : List Event) :
    (sortBySeqKey ctx l).Perm l := by
  simpa using foldl_insertByKey_perm (connSeqKey ctx) l []

theorem count_filter_eq (a : Event) (p : Event → Bool) (l : List Event) :
    List.count a (l.filter p) = if p a then List.count a l else 0 := by
  by_cases h : p a = true
  · rw [List.count_filter h, if_pos h]
  · rw [if_neg h, List.count_eq_zero]
    intro hmem
    exact h (List.mem_filter.mp hmem).2

/-- C4 (amended): `process_events_with_priority` dispatches every event of
the batch exactly once in the same invocation — the dispatch order is a
permutation of the batch — and it is the batch's Step events (in arrival
order) followed by only non-Step events; nothing is deferred or returned
for re-scheduling, and Source and Delay `on_events` are exactly the
sequential handler run over this order. -/
theorem priority_order_is_permutation (ctx : ProcessContext) (events : List Event) :
    (priorityOrder ctx events).Perm events ∧
    priorityOrder ctx events =
      events.filter (fun e => isStepPayload e.payload) ++
      (priorityOrder ctx events).filter (fun e => !isStepPayload e.payload) ∧
    (∀ s : Source, Proc.on_events (.source s) events ctx =
      foldOnEvents Proc.on_event ctx (.source s) (priorityOrder ctx events)) ∧
    (∀ d : Delay, Proc.on_events (.delay d) events ctx =
      foldOnEvents Proc.on_event ctx (.delay d) (priorityOrder ctx events)) := by
  refine ⟨?_, ?_, fun s => rfl, fun d => rfl⟩
  · rw [List.perm_iff_count]
    intro a
    simp only [priorityOrder, List.count_append]
    rw [(sortBySeqKey_perm ctx _).count_eq, (sortBySeqKey_perm ctx _).count_eq,
      (sortBySeqKey_perm ctx _).count_eq]
    rw [count_filter_eq, count_filter_eq, count_filter_eq, count_filter_eq,
      count_filter_eq, count_filter_eq]
    cases hpa : a.payload <;>
      simp [isStepPayload, isTriggerPayload, isPullPayload, isPullAllPayload,
        isResourcePayload, isOtherPayload, hpa]
  · have hA : (events.filter (fun e => isStepPayload e.payload)).filter
        (fun e => !isStepPayload e.payload) = [] := by
      rw [List.filter_eq_nil_iff]
      intro e he
      simp [(List.mem_filter.mp he).2]
    have hB : (events.filter (fun e => isTriggerPayload e.payload)).filter
        (fun e => !isStepPayload e.payload) =
        events.filter (fun e => isTriggerPayload e.payload) := by
      rw [List.filter_eq_self]
      intro e he
      have hp := (List.mem_filter.mp he).2
      cases hpe : e.payload <;> simp_all [isTriggerPayload, isStepPayload]
    have hC : (sortBySeqKey ctx (events.filter (fun e => isPullPayload e.payload))).filter
        (fun e => !isStepPayload e.payload) =
        sortBySeqKey ctx (events.filter (fun e => isPullPayload e.payload)) := by
      rw [List.filter_eq_self]
      intro e he
      have hp := (List.mem_filter.mp ((sortBySeqKey_perm ctx _).mem_iff.mp he)).2
      cases hpe : e.payload <;> simp_all [isPullPayload, isStepPayload]
    have hD : (sortBySeqKey ctx (events.filter (fun e => isPullAllPayload e.payload))).filter
        (fun e => !isStepPayload e.payload) =
        sortBySeqKey ctx (events.filter (fun e => isPullAllPayload e.payload)) := by
      rw [List.filter_eq_self]
      intro e he
      have hp := (List.mem_filter.mp ((sortBySeqKey_perm ctx _).mem_iff.mp he)).2
      cases hpe : e.payload <;> simp_all [isPullAllPayload, isStepPayload]
    have hE : (sortBySeqKey ctx (events.filter (fun e => isResourcePayload e.payload))).filter
        (fun e => !isStepPayload e.payload) =
        sortBySeqKey ctx (events.filter (fun e => isResourcePayload e.payload)) := by
      rw [List.filter_eq_self]
      intro e he
      have hp := (List.mem_filter.mp ((sortBySeqKey_perm ctx _).mem_iff.mp he)).2
      cases hpe : e.payload <;> simp_all [isResourcePayload, isStepPayload]
    have hF : (events.filter (fun e => isOtherPayload e.payload)).filter
        (fun e => !isStepPayload e.payload) =
        events.filter (fun e => isOtherPayload e.payload) := by
      rw [List.filter_eq_self]
      intro e he
      have hp := (List.mem_filter.mp he).2
      cases hpe : e.payload <;> simp_all [isOtherPayload, isStepPayload]
    conv_lhs => rw [priorityOrder]
    rw [priorityOrder, List.filter_append, List.filter_append, List.filter_append,
      List.filter_append, List.filter_append, hA, hB, hC, hD, hE, hF]
    simp [List.append_assoc]

/-! ### C1 support: the conserved balance -/

/-- Process kinds whose handler books an incoming `ResourceAccepted(a)`
against their own inventory (Source credits production, Pool deducts the
committed resources, Delay books the release); Drain and Stepper ignore the
payload. -/
def kindAbsorbsAccepted : Proc → Bool
  | .source _ => true
  | .pool _ => true
  | .delay _ => true
  | _ => false

/-- A Resource payload carries a nonnegative amount. -/
def eventResourceOkB (e : Event) : Bool :=
  match e.payload with
  | .resource a => decide (0 ≤ a)
  | _ => true

/-- A ResourceAccepted payload is addressed to a single process that books
it (not to "broadcast", and not to a Drain or Stepper). -/
def eventAcceptedOkB (sim : Simulation) (e : Event) : Bool :=
  match e.payload with
  | .resourceAccepted _ =>
    (e.target_id != "broadcast") &&
    (match alGet sim.processes e.target_id with
     | some p => kindAbsorbsAccepted p
     | none => true)
  | _ => true

/-- Protocol well-formedness of the queue: every queued Resource amount is
nonnegative and every queued ResourceAccepted event is addressed to a
booking process.  The states the engine's own nodes produce satisfy this as
long as no pool has been driven to negative resources (see C7). -/
def QOK (sim : Simulation) : Prop :=
  ∀ e ∈ sim.event_queue, eventResourceOkB e = true ∧ eventAcceptedOkB sim e = true

instance (sim : Simulation) : Decidable (QOK sim) := by
  unfold QOK
  infer_instance

/-- Net balance contribution of one process:
`produced − consumed − pool resources − delay current resources`. -/
def Proc.balTerm (p : Proc) : ℚ :=
  p.producedTerm - p.consumedTerm - p.poolTerm - p.delayTerm

/-- Balance contribution of a process list. -/
def procsBal (ps : List (String × Proc)) : ℚ :=
  (ps.map (fun kv => kv.2.balTerm)).sum

/-- Balance contribution of a queue: the accepted amounts still in flight. -/
def queueAcc (q : List Event) : ℚ :=
  (q.map Event.acceptedAmount).sum

theorem balance_eq (sim : Simulation) :
    balance sim = procsBal sim.processes + queueAcc sim.event_queue := by
  unfold balance procsBal queueAcc sumOver Proc.balTerm
  induction sim.processes with
  | nil => simp
  | cons kv rest ih =>
    simp only [List.map_cons, List.sum_cons] at *
    linarith

theorem queueAcc_append (q1 q2 : List Event) :
    queueAcc (q1 ++ q2) = queueAcc q1 + queueAcc q2 := by
  simp [queueAcc]

theorem queueAcc_nil : queueAcc [] = 0 := rfl

/-- Reassigning the sequence number does not change the accepted amount. -/
theorem acceptedAmount_set_seq (e : Event) (n : ℕ) :
    Event.acceptedAmount { e with sequence_number := n } = Event.acceptedAmount e := rfl

theorem selectMin_perm (e : Event) (es : List Event) :
    (e :: es).Perm ((selectMin e es).1 :: (selectMin e es).2) := by
  induction es generalizing e with
  | nil => exact List.Perm.refl _
  | cons f fs ih =>
    simp only [selectMin]
    split
    · exact ((ih f).cons e).trans (List.Perm.swap _ e _)
    · exact (ih f).cons e

theorem popMin_perm {q : List Event} {e : Event} {rest : List Event}
    (h : popMin q = some (e, rest)) : q.Perm (e :: rest) := by
  cases q with
  | nil => simp [popMin] at h
  | cons a as =>
    simp only [popMin, Option.some.injEq] at h
    have hp := selectMin_perm a as
    rw [h] at hp
    exact hp

theorem queueAcc_popMin {q : List Event} {e : Event} {rest : List Event}
    (h : popMin q = some (e, rest)) :
    queueAcc q = Event.acceptedAmount e + queueAcc rest := by
  have hp := (popMin_perm h).map Event.acceptedAmount
  unfold queueAcc
  rw [hp.sum_eq]
  simp

/-- `alSet` with the value already stored changes nothing. -/
theorem alSet_self {β : Type} (m : List (String × β)) (k : String) (v : β)
    (h : alGet m k = some v) : alSet m k v = m := by
  induction m with
  | nil => simp [alGet] at h
  | cons kv rest ih =>
    rw [alGet_cons] at h
    by_cases hk : kv.1 = k
    · rw [if_pos hk] at h
      cases h
      simp only [alSet, beq_iff_eq, hk, if_true]
      rw [← hk]
    · rw [if_neg hk] at h
      simp only [alSet, beq_iff_eq, hk, if_false]
      rw [ih h]

/-- Replacing the stored process changes `procsBal` by the difference of the
balance terms. -/
theorem procsBal_alSet (m : List (String × Proc)) (k : String) (v p : Proc)
    (h : alGet m k = some p) :
    procsBal (alSet m k v) = procsBal m - p.balTerm + v.balTerm := by
  induction m with
  | nil => simp [alGet] at h
  | cons kv rest ih =>
    rw [alGet_cons] at h
    by_cases hk : kv.1 = k
    · rw [if_pos hk] at h
      cases h
      simp only [alSet, beq_iff_eq, hk, if_true, procsBal, List.map_cons, List.sum_cons]
      ring
    · rw [if_neg hk] at h
      simp only [alSet, beq_iff_eq, hk, if_false, procsBal, List.map_cons, List.sum_cons]
      have := ih h
      unfold procsBal at this
      linarith

theorem queueAcc_eq_zero {l : List Event} (h : ∀ x ∈ l, Event.acceptedAmount x = 0) :
    queueAcc l = 0 := by
  unfold queueAcc
  induction l with
  | nil => simp
  | cons x xs ih =>
    simp only [List.map_cons, List.sum_cons]
    rw [h x (List.mem_cons_self x xs), ih (fun y hy => h y (List.mem_cons_of_mem x hy))]
    simp

theorem pushAny_fold_balance (pid : String) (t : ℚ) (conns : List Connection)
    (acc : Pool × List Event) :
    (conns.foldl (Pool.pushAnyStep pid t) acc).1.state.resources = acc.1.state.resources ∧
    queueAcc (conns.foldl (Pool.pushAnyStep pid t) acc).2 = queueAcc acc.2 := by
  induction conns generalizing acc with
  | nil => exact ⟨rfl, rfl⟩
  | cons c cs ih =>
    simp only [List.foldl_cons]
    obtain ⟨h1, h2⟩ := ih (Pool.pushAnyStep pid t acc c)
    refine ⟨h1.trans ?_, h2.trans ?_⟩
    · unfold Pool.pushAnyStep
      dsimp only
      split <;> rfl
    · unfold Pool.pushAnyStep
      dsimp only
      split
      · rw [queueAcc_append]
        simp [queueAcc, Event.acceptedAmount, Event.mk0]
      · rfl

theorem pushAll_fold_balance (pid : String) (t : ℚ) (conns : List Connection)
    (acc : Pool × List Event) :
    (conns.foldl (Pool.pushAllStep pid t) acc).1.state.resources = acc.1.state.resources ∧
    queueAcc (conns.foldl (Pool.pushAllStep pid t) acc).2 = queueAcc acc.2 := by
  induction conns generalizing acc with
  | nil => exact ⟨rfl, rfl⟩
  | cons c cs ih =>
    simp only [List.foldl_cons]
    obtain ⟨h1, h2⟩ := ih (Pool.pushAllStep pid t acc c)
    refine ⟨h1.trans rfl, h2.trans ?_⟩
    unfold Pool.pushAllStep
    rw [queueAcc_append]
    simp [queueAcc, Event.acceptedAmount, Event.mk0]

/-- Accepted amount carried by the accept/reject event pair
`Pool::handle_resource` emits. -/
theorem queueAcc_acc_rej (pid src : String) (t x y : ℚ) (hx : 0 ≤ x) :
    queueAcc ((if 0 < x then [Event.mk0 pid none src none t (.resourceAccepted x)] else []) ++
      (if 0 < y then [Event.mk0 pid none src none t (.resourceRejected y)] else [])) = x := by
  rw [queueAcc_append]
  have h2 : queueAcc (if 0 < y then
      [Event.mk0 pid none src none t (.resourceRejected y)] else []) = 0 := by
    split <;> simp [queueAcc, Event.acceptedAmount, Event.mk0]
  rw [h2]
  rcases lt_or_eq_of_le hx with h | h
  · rw [if_pos h]
    simp [queueAcc, Event.acceptedAmount, Event.mk0]
  · rw [if_neg (by rw [← h]; exact lt_irrefl 0), queueAcc_nil, ← h]
    ring

/-- The Pool handler preserves the balance: whatever it books into
`resources` is matched by the `ResourceAccepted` amounts it emits or
consumes (a Resource delivery needs a nonnegative amount, which is where
the claimed conservation breaks down for overdrafted pools). -/
theorem pool_on_event_balance (q : Pool) (e : Event) (ctx : ProcessContext)
    (hres : eventResourceOkB e = true) :
    Proc.balTerm (.pool (q.on_event e ctx).1) + queueAcc (q.on_event e ctx).2 =
      Proc.balTerm (.pool q) + Event.acceptedAmount e := by
  simp only [Proc.balTerm, Proc.producedTerm, Proc.consumedTerm, Proc.poolTerm,
    Proc.delayTerm]
  cases hpay : e.payload with
  | step =>
    have hacc0 : Event.acceptedAmount e = 0 := by simp [Event.acceptedAmount, hpay]
    rw [hacc0]
    simp only [Pool.on_event, hpay]
    cases htm : q.trigger_mode
    case passive => simp [queueAcc]
    case interactive => simp [queueAcc]
    case enabling => simp [queueAcc]
    case automatic =>
      cases hact : q.action
      case pushAny =>
        simp only [Pool.handle_automatic_action, hact]
        obtain ⟨h1, h2⟩ := pushAny_fold_balance q.id ctx.current_time
          (ctx.outputs_for_port (some "out")) (q, [])
        rw [h1, h2.trans queueAcc_nil]
      case pushAll =>
        simp only [Pool.handle_automatic_action, hact]
        split
        · obtain ⟨h1, h2⟩ := pushAll_fold_balance q.id ctx.current_time
            (ctx.outputs_for_port (some "out")) (q, [])
          rw [h1, h2.trans queueAcc_nil]
        · rw [queueAcc_nil]
      case pullAny =>
        simp only [Pool.handle_automatic_action, hact]
        rw [queueAcc_eq_zero (by
          intro c hc
          rcases List.mem_map.mp hc with ⟨conn, hconn, rfl⟩
          rfl)]
      case pullAll =>
        simp only [Pool.handle_automatic_action, hact]
        rw [queueAcc_eq_zero (by
          intro c hc
          rcases List.mem_map.mp hc with ⟨conn, hconn, rfl⟩
          rfl)]
  | trigger => simp [Pool.on_event, hpay, queueAcc, Event.acceptedAmount]
  | resource a =>
    have ha : 0 ≤ a := by
      simp only [eventResourceOkB, hpay, decide_eq_true_eq] at hres
      exact hres
    simp only [Pool.on_event, hpay, Pool.handle_resource, Event.acceptedAmount, hpay]
    by_cases hfull : q.capacity < 0 ∨ q.state.resources + a ≤ q.capacity
    · rw [if_pos hfull]
      dsimp only
      rw [queueAcc_acc_rej _ _ _ _ _ ha]
      ring
    · rw [if_neg hfull]
      cases hov : q.overflow
      · dsimp only
        rw [queueAcc_acc_rej _ _ _ _ _ (le_refl 0)]
      · dsimp only
        rw [queueAcc_acc_rej _ _ _ _ _ (le_max_right (q.capacity - q.state.resources) 0)]
        ring
  | resourceAccepted a =>
    simp only [Pool.on_event, hpay, queueAcc_nil, Event.acceptedAmount]
    ring
  | resourceRejected a =>
    simp [Pool.on_event, hpay, queueAcc, Event.acceptedAmount]
  | pullRequest a =>
    simp [Pool.on_event, hpay, Pool.handle_pull_request, queueAcc,
      Event.acceptedAmount, Event.mk0]
  | pullAllRequest a t2 =>
    simp [Pool.on_event, hpay, queueAcc, Event.acceptedAmount]
  | simulationStart =>
    simp [Pool.on_event, hpay, queueAcc, Event.acceptedAmount]
  | simulationEnd =>
    simp [Pool.on_event, hpay, queueAcc, Event.acceptedAmount]
  | custom s =>
    simp [Pool.on_event, hpay, queueAcc, Event.acceptedAmount]

/-- `Source::handle_push_any` emits only Resource events. -/
theorem source_push_any_acc (s : Source) (ctx : ProcessContext) :
    queueAcc (s.handle_push_any ctx).2 = 0 := by
  apply queueAcc_eq_zero
  intro c hc
  rcases List.mem_map.mp hc with ⟨conn, hconn, rfl⟩
  rfl

/-- A successful `Source::handle_automatic_action` leaves the state
unchanged and emits only Resource events. -/
theorem source_auto_acc (s : Source) (ctx : ProcessContext) (r : Source × List Event)
    (h : s.handle_automatic_action ctx = some r) :
    r.1 = s ∧ queueAcc r.2 = 0 := by
  unfold Source.handle_automatic_action at h
  cases hact : s.action <;> rw [hact] at h
  case pushAny =>
    cases h
    exact ⟨rfl, source_push_any_acc s ctx⟩
  all_goals exact Option.noConfusion h

/-- The Source handler preserves the balance: production is credited exactly
by the `ResourceAccepted` amounts it receives. -/
theorem source_on_event_balance (s : Source) (e : Event) (ctx : ProcessContext)
    (r : Source × List Event) (h : s.on_event e ctx = some r) :
    Proc.balTerm (.source r.1) + queueAcc r.2 =
      Proc.balTerm (.source s) + Event.acceptedAmount e := by
  unfold Source.on_event at h
  cases hpay : e.payload <;> rw [hpay] at h <;> dsimp only at h
  case step =>
    cases htm : s.trigger_mode <;> rw [htm] at h <;> dsimp only at h
    case passive =>
      split at h
      · cases h
        simp [Proc.balTerm, Proc.producedTerm, Proc.consumedTerm, Proc.poolTerm,
          Proc.delayTerm, queueAcc, Event.acceptedAmount, hpay]
      · exact Option.noConfusion h
    case interactive => exact Option.noConfusion h
    case automatic =>
      cases hau : s.handle_automatic_action ctx <;> rw [hau] at h <;> dsimp only at h
      · exact Option.noConfusion h
      · split at h
        · cases h
          obtain ⟨h1, h2⟩ := source_auto_acc s ctx _ hau
          rw [h1, h2]
          simp [Event.acceptedAmount, hpay]
        · exact Option.noConfusion h
    case enabling =>
      by_cases hstep : (ctx.current_step == 1) = true
      · rw [if_pos hstep] at h
        cases hau : s.handle_automatic_action ctx <;> rw [hau] at h <;> dsimp only at h
        · exact Option.noConfusion h
        · split at h
          · cases h
            obtain ⟨h1, h2⟩ := source_auto_acc s ctx _ hau
            rw [h1, h2]
            simp [Event.acceptedAmount, hpay]
          · exact Option.noConfusion h
      · rw [if_neg hstep] at h
        dsimp only at h
        split at h
        · cases h
          simp [Proc.balTerm, Proc.producedTerm, Proc.consumedTerm, Proc.poolTerm,
            Proc.delayTerm, queueAcc, Event.acceptedAmount, hpay]
        · exact Option.noConfusion h
  case trigger =>
    cases hau : s.handle_automatic_action ctx <;> rw [hau] at h <;> dsimp only at h
    · exact Option.noConfusion h
    · split at h
      · cases h
        obtain ⟨h1, h2⟩ := source_auto_acc s ctx _ hau
        rw [h1, h2]
        simp [Event.acceptedAmount, hpay]
      · exact Option.noConfusion h
  case pullRequest a =>
    split at h
    · cases h
      simp [Source.handle_pull_request, Proc.balTerm, Proc.producedTerm,
        Proc.consumedTerm, Proc.poolTerm, Proc.delayTerm, queueAcc,
        Event.acceptedAmount, Event.mk0, hpay]
    · exact Option.noConfusion h
  case pullAllRequest a t2 =>
    split at h
    · cases h
      simp [Source.handle_pull_request, Proc.balTerm, Proc.producedTerm,
        Proc.consumedTerm, Proc.poolTerm, Proc.delayTerm, queueAcc,
        Event.acceptedAmount, Event.mk0, hpay]
    · exact Option.noConfusion h
  case resourceAccepted a =>
    split at h
    · cases h
      simp only [Proc.balTerm, Proc.producedTerm, Proc.consumedTerm, Proc.poolTerm,
        Proc.delayTerm, queueAcc, List.map_nil, List.sum_nil, Event.acceptedAmount, hpay]
      ring
    · exact Option.noConfusion h
  all_goals
    split at h
    · cases h
      simp [Proc.balTerm, Proc.producedTerm, Proc.consumedTerm, Proc.poolTerm,
        Proc.delayTerm, queueAcc, Event.acceptedAmount, hpay]
    · exact Option.noConfusion h

/-- `Drain::handle_step` leaves the state unchanged and emits only pull
requests. -/
theorem drain_step_acc (d : Drain) (ctx : ProcessContext) :
    (d.handle_step ctx).1 = d ∧ queueAcc (d.handle_step ctx).2 = 0 := by
  unfold Drain.handle_step
  cases d.trigger_mode <;> cases d.action <;>
    first
      | exact ⟨rfl, rfl⟩
      | (refine ⟨rfl, queueAcc_eq_zero ?_⟩
         intro c hc
         rcases List.mem_map.mp hc with ⟨conn, hconn, rfl⟩
         rfl)

/-- The Drain handler preserves the balance: consumption is matched by the
`ResourceAccepted` acknowledgements it emits (a Drain never books an
incoming accepted amount, hence the hypothesis). -/
theorem drain_on_event_balance (d : Drain) (e : Event) (ctx : ProcessContext)
    (hacc : Event.acceptedAmount e = 0) :
    Proc.balTerm (.drain (d.on_event e ctx).1) + queueAcc (d.on_event e ctx).2 =
      Proc.balTerm (.drain d) + Event.acceptedAmount e := by
  rw [hacc]
  cases hpay : e.payload
  case step =>
    simp only [Drain.on_event, hpay]
    obtain ⟨h1, h2⟩ := drain_step_acc d ctx
    rw [h1, h2]
  case resource a =>
    simp only [Drain.on_event, hpay, Proc.balTerm, Proc.producedTerm, Proc.consumedTerm,
      Proc.poolTerm, Proc.delayTerm, queueAcc, List.map_cons, List.map_nil,
      List.sum_cons, List.sum_nil, Event.acceptedAmount, Event.mk0]
    ring
  all_goals
    simp [Drain.on_event, hpay, Proc.balTerm, Proc.producedTerm, Proc.consumedTerm,
      Proc.poolTerm, Proc.delayTerm, queueAcc]

/-- The Stepper handler preserves the balance: it never books or emits
resources. -/
theorem stepper_on_event_balance (st : Stepper) (e : Event) (ctx : ProcessContext)
    (hacc : Event.acceptedAmount e = 0) :
    Proc.balTerm (.stepper (st.on_event e ctx).1) + queueAcc (st.on_event e ctx).2 =
      Proc.balTerm (.stepper st) + Event.acceptedAmount e := by
  rw [hacc]
  cases hpay : e.payload <;>
    simp [Stepper.on_event, hpay, Proc.balTerm, Proc.producedTerm, Proc.consumedTerm,
      Proc.poolTerm, Proc.delayTerm, queueAcc, Event.acceptedAmount, Event.mk0]

theorem queueArrival_state (d1 : Delay) (amount delay t : ℚ) :
    (d1.queueArrival amount delay t).state = d1.state := by
  unfold Delay.queueArrival
  split <;> rfl

/-- `queueReceive` never touches the received total. -/
theorem queueReceive_received (d2 : Delay) (delay t : ℚ) (ack : Event) (tid : String)
    (tport : Option String) :
    (d2.queueReceive delay t ack tid tport).1.state.resources_received =
      d2.state.resources_received := by
  unfold Delay.queueReceive
  split <;> rfl

/-- `queueReceive` never touches the released total. -/
theorem queueReceive_released (d2 : Delay) (delay t : ℚ) (ack : Event) (tid : String)
    (tport : Option String) :
    (d2.queueReceive delay t ack tid tport).1.state.resources_released =
      d2.state.resources_released := by
  unfold Delay.queueReceive
  split <;> rfl

/-- The emissions of `queueReceive` carry exactly the acknowledgement's
accepted amount. -/
theorem queueReceive_acc (d2 : Delay) (delay t : ℚ) (ack : Event) (tid : String)
    (tport : Option String) :
    queueAcc (d2.queueReceive delay t ack tid tport).2 = Event.acceptedAmount ack := by
  unfold Delay.queueReceive
  split
  · simp [queueAcc, Event.acceptedAmount, Delay.create_transfer_event, Event.mk0]
  · simp [queueAcc]

/-- A successful `Delay::handle_resource` books exactly the emitted
`ResourceAccepted` amount into `current_resources`. -/
theorem delay_handle_resource_balance (d : Delay) (e : Event) (ctx : ProcessContext)
    (a : ℚ) (r : Delay × List Event) (h : d.handle_resource e ctx a = some r) :
    r.1.state.current_resources = d.state.current_resources + queueAcc r.2 := by
  unfold Delay.handle_resource at h
  split at h
  · exact Option.noConfusion h
  · split at h
    · cases h
      simp [DelayState.current_resources, queueAcc, Event.acceptedAmount, Event.mk0]
    · split at h
      · cases h
        simp [DelayState.current_resources, queueAcc, Event.acceptedAmount, Event.mk0]
      · dsimp only at h
        cases hact : d.action <;> rw [hact] at h
        case delay =>
          cases h
          simp [DelayState.current_resources, queueAcc, Event.acceptedAmount,
            Event.mk0, Delay.create_transfer_event]
          ring
        case queue =>
          cases h
          simp [DelayState.current_resources, queueReceive_received,
            queueReceive_released, queueReceive_acc, queueArrival_state,
            Event.acceptedAmount, Event.mk0]
          ring

/-- The Delay handler preserves the balance: received resources match the
acknowledgements it emits, released resources match the accepted amounts it
receives. -/
theorem delay_on_event_balance (d : Delay) (e : Event) (ctx : ProcessContext)
    (r : Delay × List Event) (h : d.on_event e ctx = some r) :
    Proc.balTerm (.delay r.1) + queueAcc r.2 =
      Proc.balTerm (.delay d) + Event.acceptedAmount e := by
  unfold Delay.on_event at h
  cases hpay : e.payload <;> rw [hpay] at h <;> dsimp only at h
  case step =>
    cases hact : d.action <;> rw [hact] at h <;> dsimp only at h
    case delay =>
      split at h
      · cases h
        simp [Proc.balTerm, Proc.producedTerm, Proc.consumedTerm, Proc.poolTerm,
          Proc.delayTerm, queueAcc, Event.acceptedAmount, hpay]
      · exact Option.noConfusion h
    case queue =>
      cases houts : ctx.outputs_for_port (some "out") <;> rw [houts] at h <;>
        dsimp only at h
      · split at h
        · cases h
          simp [Proc.balTerm, Proc.producedTerm, Proc.consumedTerm, Proc.poolTerm,
            Proc.delayTerm, queueAcc, Event.acceptedAmount, hpay]
        · exact Option.noConfusion h
      · rename_i conn rest
        by_cases hcond : rest = [] ∧ d.can_release_from_queue ctx.current_time
        · rw [if_pos hcond] at h
          dsimp only at h
          split at h
          · cases h
            simp [Proc.balTerm, Proc.producedTerm, Proc.consumedTerm, Proc.poolTerm,
              Proc.delayTerm, DelayState.current_resources, queueAcc,
              Event.acceptedAmount, Event.mk0, Delay.create_transfer_event, hpay]
          · exact Option.noConfusion h
        · rw [if_neg hcond] at h
          dsimp only at h
          split at h
          · cases h
            simp [Proc.balTerm, Proc.producedTerm, Proc.consumedTerm, Proc.poolTerm,
              Proc.delayTerm, queueAcc, Event.acceptedAmount, hpay]
          · exact Option.noConfusion h
  case pullRequest a =>
    split at h
    · cases h
      refine Eq.trans ?_ (by simp [Event.acceptedAmount, hpay] : Proc.balTerm (.delay d) + 0 = Proc.balTerm (.delay d) + Event.acceptedAmount e)
      have hz : queueAcc (d.handle_pull_request ctx).2 = 0 := by
        apply queueAcc_eq_zero
        intro c hc
        rcases List.mem_map.mp hc with ⟨conn, hconn, rfl⟩
        rfl
      rw [hz]
      rfl
    · exact Option.noConfusion h
  case pullAllRequest a t2 =>
    split at h
    · cases h
      refine Eq.trans ?_ (by simp [Event.acceptedAmount, hpay] : Proc.balTerm (.delay d) + 0 = Proc.balTerm (.delay d) + Event.acceptedAmount e)
      have hz : queueAcc (d.handle_pull_request ctx).2 = 0 := by
        apply queueAcc_eq_zero
        intro c hc
        rcases List.mem_map.mp hc with ⟨conn, hconn, rfl⟩
        rfl
      rw [hz]
      rfl
    · exact Option.noConfusion h
  case resource a =>
    cases hhr : d.handle_resource e ctx a <;> rw [hhr] at h <;> dsimp only at h
    · exact Option.noConfusion h
    · split at h
      · cases h
        have hb := delay_handle_resource_balance d e ctx a _ hhr
        simp only [Proc.balTerm, Proc.producedTerm, Proc.consumedTerm, Proc.poolTerm,
          Proc.delayTerm, Event.acceptedAmount, hpay]
        rw [hb]
        ring
      · exact Option.noConfusion h
  case resourceAccepted a =>
    split at h
    · cases h
      simp only [Proc.balTerm, Proc.producedTerm, Proc.consumedTerm, Proc.poolTerm,
        Proc.delayTerm, DelayState.current_resources, queueAcc, List.map_nil,
        List.sum_nil, Event.acceptedAmount, hpay]
      ring
    · exact Option.noConfusion h
  case resourceRejected a =>
    split at h
    · cases h
      simp [Proc.balTerm, Proc.producedTerm, Proc.consumedTerm, Proc.poolTerm,
        Proc.delayTerm, DelayState.current_resources, queueAcc, Event.acceptedAmount,
        hpay]
    · exact Option.noConfusion h
  all_goals
    split at h
    · cases h
      simp [Proc.balTerm, Proc.producedTerm, Proc.consumedTerm, Proc.poolTerm,
        Proc.delayTerm, queueAcc, Event.acceptedAmount, hpay]
    · exact Option.noConfusion h

/-- One delivered event preserves the process-plus-emissions balance,
crediting the booked `ResourceAccepted` amount. -/
theorem proc_on_event_balance (p : Proc) (e : Event) (ctx : ProcessContext)
    (r : Proc × List Event) (h : p.on_event e ctx = some r)
    (hres : eventResourceOkB e = true)
    (hacc : Event.acceptedAmount e = 0 ∨ kindAbsorbsAccepted p = true) :
    r.1.balTerm + queueAcc r.2 = p.balTerm + Event.acceptedAmount e := by
  cases p
  case source s =>
    simp only [Proc.on_event] at h
    cases hs : s.on_event e ctx <;> rw [hs] at h <;> simp only [Option.map] at h
    · exact Option.noConfusion h
    · cases h
      exact source_on_event_balance s e ctx _ hs
  case pool q =>
    simp only [Proc.on_event] at h
    cases h
    exact pool_on_event_balance q e ctx hres
  case drain d =>
    simp only [Proc.on_event] at h
    cases h
    rcases hacc with h0 | hk
    · exact drain_on_event_balance d e ctx h0
    · exact absurd hk (by simp [kindAbsorbsAccepted])
  case delay d =>
    simp only [Proc.on_event] at h
    cases hs : d.on_event e ctx <;> rw [hs] at h <;> simp only [Option.map] at h
    · exact Option.noConfusion h
    · cases h
      exact delay_on_event_balance d e ctx _ hs
  case stepper st =>
    simp only [Proc.on_event] at h
    cases h
    rcases hacc with h0 | hk
    · exact stepper_on_event_balance st e ctx h0
    · exact absurd hk (by simp [kindAbsorbsAccepted])

/-- The dispatch order of the priority batcher is a permutation of the
batch. -/
theorem priorityOrder_perm (ctx : ProcessContext) (events : List Event) :
    (priorityOrder ctx events).Perm events := by
  rw [List.perm_iff_count]
  intro a
  simp only [priorityOrder, List.count_append]
  rw [(sortBySeqKey_perm ctx _).count_eq, (sortBySeqKey_perm ctx _).count_eq,
    (sortBySeqKey_perm ctx _).count_eq]
  rw [count_filter_eq, count_filter_eq, count_filter_eq, count_filter_eq,
    count_filter_eq, count_filter_eq]
  cases hpa : a.payload <;>
    simp [isStepPayload, isTriggerPayload, isPullPayload, isPullAllPayload,
      isResourcePayload, isOtherPayload, hpa]

theorem priorityOrder_singleton (ctx : ProcessContext) (e : Event) :
    priorityOrder ctx [e] = [e] :=
  List.perm_singleton.mp (priorityOrder_perm ctx [e])

/-- Delivering a single event through `on_events` is a single `on_event`
call. -/
theorem on_events_singleton (p : Proc) (e : Event) (ctx : ProcessContext) :
    p.on_events [e] ctx = p.on_event e ctx := by
  have hfold : foldOnEvents Proc.on_event ctx p [e] = p.on_event e ctx := by
    simp only [foldOnEvents]
    cases hh : p.on_event e ctx
    · rfl
    · simp [foldOnEvents]
  cases p <;>
    simp only [Proc.on_events, processEventsWithPriority, priorityOrder_singleton] <;>
    exact hfold

/-- `schedule_event` appends the event (with a fresh sequence number) to the
queue and leaves the processes alone. -/
theorem schedule_event_spec (sim sim2 : Simulation) (e : Event)
    (h : sim.schedule_event e = .ok sim2) :
    queueAcc sim2.event_queue = queueAcc sim.event_queue + Event.acceptedAmount e ∧
    sim2.processes = sim.processes ∧
    (∀ f ∈ sim2.event_queue, f ∈ sim.event_queue ∨ f.payload = e.payload) := by
  unfold Simulation.schedule_event at h
  cases hv : sim.validate_event e <;> rw [hv] at h <;> dsimp only at h
  · exact Except.noConfusion h
  · cases h
    refine ⟨?_, rfl, ?_⟩
    · rw [queueAcc_append]
      simp [queueAcc, acceptedAmount_set_seq]
    · intro f hf
      rcases List.mem_append.mp hf with hf | hf
      · exact Or.inl hf
      · right
        rcases List.mem_singleton.mp hf with rfl
        rfl

/-- `schedule_events` adds exactly the accepted amounts of the scheduled
events to the queue and leaves the processes alone. -/
theorem schedule_events_spec (evts : List Event) (sim sim2 : Simulation)
    (h : sim.schedule_events evts = .ok sim2) :
    queueAcc sim2.event_queue = queueAcc sim.event_queue + queueAcc evts ∧
    sim2.processes = sim.processes ∧
    (∀ f ∈ sim2.event_queue, f ∈ sim.event_queue ∨ ∃ g ∈ evts, f.payload = g.payload) := by
  induction evts generalizing sim with
  | nil =>
    unfold Simulation.schedule_events at h
    cases h
    exact ⟨by simp [queueAcc], rfl, fun f hf => Or.inl hf⟩
  | cons e rest ih =>
    unfold Simulation.schedule_events at h
    cases hse : sim.schedule_event e <;> rw [hse] at h <;> dsimp only at h
    · exact Except.noConfusion h
    · obtain ⟨h1, h2, h3⟩ := schedule_event_spec sim _ e hse
      obtain ⟨h4, h5, h6⟩ := ih _ h
      refine ⟨?_, h5.trans h2, ?_⟩
      · rw [h4, h1]
        simp only [queueAcc, List.map_cons, List.sum_cons]
        ring
      · intro f hf
        rcases h6 f hf with hf2 | ⟨g, hg, hpg⟩
        · rcases h3 f hf2 with hf3 | hp
          · exact Or.inl hf3
          · exact Or.inr ⟨e, List.mem_cons_self e rest, hp⟩
        · exact Or.inr ⟨g, List.mem_cons_of_mem e hg, hpg⟩

/-- One broadcast pass preserves the balance when the delivered event books
nothing, and leaves the queue and context untouched. -/
theorem broadcastGo_balance (e : Event) (ids : List String) (sim : Simulation)
    (acc : List Event) (r : Simulation × List Event)
    (h : broadcastGo e ids sim acc = some r)
    (hres : eventResourceOkB e = true)
    (hacc : Event.acceptedAmount e = 0) :
    procsBal r.1.processes + queueAcc r.2 = procsBal sim.processes + queueAcc acc ∧
    r.1.event_queue = sim.event_queue ∧ r.1.context = sim.context := by
  induction ids generalizing sim acc with
  | nil =>
    unfold broadcastGo at h
    cases h
    exact ⟨rfl, rfl, rfl⟩
  | cons id rest ih =>
    unfold broadcastGo at h
    cases hg : alGet sim.processes id <;> rw [hg] at h <;> dsimp only at h
    · exact ih _ _ h
    · rename_i p
      cases ho : p.on_events [e] (sim.context.context_for_process id) <;>
        rw [ho] at h <;> dsimp only at h
      · exact Option.noConfusion h
      · rename_i r2
        rw [on_events_singleton] at ho
        have hb := proc_on_event_balance p e _ r2 ho hres (Or.inl hacc)
        rw [hacc] at hb
        obtain ⟨h1, h2, h3⟩ := ih _ _ h
        refine ⟨?_, h2, h3⟩
        rw [procsBal_alSet sim.processes id r2.1 p hg, queueAcc_append] at h1
        linarith [h1, hb]

/-- Targeted delivery preserves the balance, crediting the accepted amount
booked by the target. -/
theorem process_event_balance (sim : Simulation) (e : Event)
    (r : Simulation × List Event) (h : sim.process_event e = some r)
    (hres : eventResourceOkB e = true)
    (hacc : ∀ p, alGet sim.processes e.target_id = some p →
      Event.acceptedAmount e = 0 ∨ kindAbsorbsAccepted p = true) :
    procsBal r.1.processes + queueAcc r.2 =
      procsBal sim.processes + Event.acceptedAmount e ∧
    r.1.event_queue = sim.event_queue ∧ r.1.context = sim.context := by
  unfold Simulation.process_event at h
  cases hg : alGet sim.processes e.target_id <;> rw [hg] at h <;> dsimp only at h
  · exact Option.noConfusion h
  · rename_i p
    cases ho : p.on_events [e] (sim.context.context_for_process e.target_id) <;>
      rw [ho] at h <;> dsimp only at h
    · exact Option.noConfusion h
    · rename_i r2
      cases h
      rw [on_events_singleton] at ho
      have hb := proc_on_event_balance p e _ r2 ho hres (hacc p hg)
      refine ⟨?_, rfl, rfl⟩
      rw [procsBal_alSet sim.processes e.target_id r2.1 p hg]
      linarith [hb]

/-- Handlers respond to `SimulationStart` without changing state, emitting
only Step events (the Stepper's heartbeat). -/
theorem on_event_start_emits (p : Proc) (e : Event) (ctx : ProcessContext)
    (r : Proc × List Event) (hpay : e.payload = .simulationStart)
    (h : p.on_event e ctx = some r) :
    r.1 = p ∧ ∀ f ∈ r.2, f.payload = .step := by
  cases p
  case source s =>
    simp only [Proc.on_event] at h
    cases hs : s.on_event e ctx <;> rw [hs] at h <;> simp only [Option.map] at h
    · exact Option.noConfusion h
    · cases h
      unfold Source.on_event at hs
      rw [hpay] at hs
      dsimp only at hs
      split at hs
      · cases hs
        exact ⟨rfl, by intro f hf; simp at hf⟩
      · exact Option.noConfusion hs
  case pool q =>
    simp only [Proc.on_event] at h
    cases h
    have hq : q.on_event e ctx = (q, []) := by simp [Pool.on_event, hpay]
    rw [hq]
    exact ⟨rfl, by intro f hf; simp at hf⟩
  case drain d =>
    simp only [Proc.on_event] at h
    cases h
    have hd : d.on_event e ctx = (d, []) := by simp [Drain.on_event, hpay]
    rw [hd]
    exact ⟨rfl, by intro f hf; simp at hf⟩
  case delay d =>
    simp only [Proc.on_event] at h
    cases hs : d.on_event e ctx <;> rw [hs] at h <;> simp only [Option.map] at h
    · exact Option.noConfusion h
    · cases h
      unfold Delay.on_event at hs
      rw [hpay] at hs
      dsimp only at hs
      split at hs
      · cases hs
        exact ⟨rfl, by intro f hf; simp at hf⟩
      · exact Option.noConfusion hs
  case stepper st =>
    simp only [Proc.on_event] at h
    cases h
    have hst : st.on_event e ctx =
        (st, [Event.mk0 st.id (some "step") "broadcast" none ctx.current_time .step]) := by
      simp [Stepper.on_event, hpay]
    rw [hst]
    refine ⟨rfl, ?_⟩
    intro f hf
    rcases List.mem_singleton.mp hf with rfl
    rfl

/-- Handlers respond to `SimulationEnd` without changing state or emitting
anything. -/
theorem on_event_end_frame (p : Proc) (e : Event) (ctx : ProcessContext)
    (r : Proc × List Event) (hpay : e.payload = .simulationEnd)
    (h : p.on_event e ctx = some r) : r = (p, []) := by
  cases p
  case source s =>
    simp only [Proc.on_event] at h
    cases hs : s.on_event e ctx <;> rw [hs] at h <;> simp only [Option.map] at h
    · exact Option.noConfusion h
    · cases h
      unfold Source.on_event at hs
      rw [hpay] at hs
      dsimp only at hs
      split at hs
      · cases hs
        rfl
      · exact Option.noConfusion hs
  case pool q =>
    simp only [Proc.on_event] at h
    cases h
    have hq : q.on_event e ctx = (q, []) := by simp [Pool.on_event, hpay]
    rw [hq]
  case drain d =>
    simp only [Proc.on_event] at h
    cases h
    have hd : d.on_event e ctx = (d, []) := by simp [Drain.on_event, hpay]
    rw [hd]
  case delay d =>
    simp only [Proc.on_event] at h
    cases hs : d.on_event e ctx <;> rw [hs] at h <;> simp only [Option.map] at h
    · exact Option.noConfusion h
    · cases h
      unfold Delay.on_event at hs
      rw [hpay] at hs
      dsimp only at hs
      split at hs
      · cases hs
        rfl
      · exact Option.noConfusion hs
  case stepper st =>
    simp only [Proc.on_event] at h
    cases h
    have hst : st.on_event e ctx = (st, []) := by simp [Stepper.on_event, hpay]
    rw [hst]

/-- A broadcast of `SimulationStart` leaves every process state, the queue
and the context untouched, and emits only Step events beyond the
accumulator. -/
theorem broadcastGo_start (e : Event) (ids : List String) (sim : Simulation)
    (acc : List Event) (r : Simulation × List Event)
    (hpay : e.payload = .simulationStart)
    (h : broadcastGo e ids sim acc = some r) :
    r.1.processes = sim.processes ∧ r.1.event_queue = sim.event_queue ∧
    r.1.context = sim.context ∧
    (∀ f ∈ r.2, f ∈ acc ∨ f.payload = .step) := by
  induction ids generalizing sim acc with
  | nil =>
    unfold broadcastGo at h
    cases h
    exact ⟨rfl, rfl, rfl, fun f hf => Or.inl hf⟩
  | cons id rest ih =>
    unfold broadcastGo at h
    cases hg : alGet sim.processes id <;> rw [hg] at h <;> dsimp only at h
    · exact ih _ _ h
    · rename_i p
      cases ho : p.on_events [e] (sim.context.context_for_process id) <;>
        rw [ho] at h <;> dsimp only at h
      · exact Option.noConfusion h
      · rename_i r2
        rw [on_events_singleton] at ho
        obtain ⟨hp1, hp2⟩ := on_event_start_emits p e _ r2 hpay ho
        rw [hp1, alSet_self sim.processes id p hg] at h
        obtain ⟨h1, h2, h3, h4⟩ := ih _ _ h
        refine ⟨h1, h2, h3, ?_⟩
        intro f hf
        rcases h4 f hf with hf2 | hstep
        · rcases List.mem_append.mp hf2 with hf3 | hf3
          · exact Or.inl hf3
          · exact Or.inr (hp2 f hf3)
        · exact Or.inr hstep

/-- A broadcast of `SimulationEnd` changes nothing at all. -/
theorem broadcastGo_end (e : Event) (ids : List String) (sim : Simulation)
    (acc : List Event) (r : Simulation × List Event)
    (hpay : e.payload = .simulationEnd)
    (h : broadcastGo e ids sim acc = some r) :
    r.1 = sim ∧ r.2 = acc := by
  induction ids generalizing sim acc with
  | nil =>
    unfold broadcastGo at h
    cases h
    exact ⟨rfl, rfl⟩
  | cons id rest ih =>
    unfold broadcastGo at h
    cases hg : alGet sim.processes id <;> rw [hg] at h <;> dsimp only at h
    · exact ih _ _ h
    · rename_i p
      cases ho : p.on_events [e] (sim.context.context_for_process id) <;>
        rw [ho] at h <;> dsimp only at h
      · exact Option.noConfusion h
      · rename_i r2
        rw [on_events_singleton] at ho
        have hr2 : r2 = (p, []) := on_event_end_frame p e _ r2 hpay ho
        rw [hr2] at h
        dsimp only at h
        rw [alSet_self sim.processes id p hg, List.append_nil] at h
        have hsim : { sim with processes := sim.processes } = sim := rfl
        rw [hsim] at h
        exact ih _ _ h

/-- `startPhase` preserves the balance, leaves the processes alone, and only
adds Step events to the queue. -/
theorem startPhase_spec (sim sim2 : Simulation) (h : sim.startPhase = some sim2) :
    balance sim2 = balance sim ∧ sim2.processes = sim.processes ∧
    (∀ f ∈ sim2.event_queue, f ∈ sim.event_queue ∨ f.payload = .step) := by
  unfold Simulation.startPhase at h
  split at h
  · cases hb : sim.process_broadcast_event
        (lifecycleEvent .simulationStart sim.context.current_time) <;>
      rw [hb] at h <;> dsimp only at h
    · exact Option.noConfusion h
    · rename_i r
      cases hs : r.1.schedule_events r.2 <;> rw [hs] at h <;> dsimp only at h
      · exact Option.noConfusion h
      · cases h
        unfold Simulation.process_broadcast_event at hb
        obtain ⟨hb1, hb2, hb3⟩ := broadcastGo_balance _ _ _ _ _ hb rfl rfl
        obtain ⟨hq1, hq2, hq3, hq4⟩ := broadcastGo_start _ _ _ _ _ rfl hb
        obtain ⟨hs1, hs2, hs3⟩ := schedule_events_spec r.2 r.1 _ hs
        refine ⟨?_, hs2.trans hq1, ?_⟩
        · rw [queueAcc_nil] at hb1
          rw [balance_eq, balance_eq, hs2, hs1, hb2]
          linarith [hb1]
        · intro f hf
          rcases hs3 f hf with hf2 | ⟨g, hg, hpg⟩
          · rw [hq2] at hf2
            exact Or.inl hf2
          · rcases hq4 g hg with hg2 | hg3
            · simp at hg2
            · exact Or.inr (hpg.trans hg3)
  · cases h
    exact ⟨rfl, rfl, fun f hf => Or.inl hf⟩

/-- `endPhase` preserves the balance and the processes. -/
theorem endPhase_spec (sim sim2 : Simulation) (h : sim.endPhase = some sim2) :
    balance sim2 = balance sim := by
  unfold Simulation.endPhase at h
  split at h
  · cases hb : sim.process_broadcast_event
        (lifecycleEvent .simulationEnd sim.context.current_time) <;>
      rw [hb] at h <;> dsimp only at h
    · exact Option.noConfusion h
    · cases h
      rename_i r
      unfold Simulation.process_broadcast_event at hb
      obtain ⟨hr1, hr2⟩ := broadcastGo_end _ _ _ _ _ rfl hb
      rw [hr1]
  · cases h
    rfl

/-- A queued `ResourceAccepted` that is protocol-well-formed is not a
broadcast. -/
theorem acceptedOk_broadcast {sim : Simulation} {e : Event}
    (h : eventAcceptedOkB sim e = true) (ht : e.target_id = "broadcast") :
    Event.acceptedAmount e = 0 := by
  unfold eventAcceptedOkB at h
  cases hpay : e.payload
  case resourceAccepted a =>
    rw [hpay] at h
    dsimp only at h
    rw [ht] at h
    simp at h
  all_goals simp [Event.acceptedAmount, hpay]

/-- A queued `ResourceAccepted` that is protocol-well-formed targets a
booking process. -/
theorem acceptedOk_target {sim : Simulation} {e : Event}
    (h : eventAcceptedOkB sim e = true) (p : Proc)
    (hp : alGet sim.processes e.target_id = some p) :
    Event.acceptedAmount e = 0 ∨ kindAbsorbsAccepted p = true := by
  unfold eventAcceptedOkB at h
  cases hpay : e.payload
  case resourceAccepted a =>
    rw [hpay] at h
    dsimp only at h
    rw [hp] at h
    simp only [Bool.and_eq_true] at h
    exact Or.inr h.2
  all_goals exact Or.inl (by simp [Event.acceptedAmount, hpay])

/-- An event popped from the queue was in the queue. -/
theorem popMin_mem {q : List Event} {e : Event} {rest : List Event}
    (h : popMin q = some (e, rest)) : e ∈ q :=
  (popMin_perm h).mem_iff.mpr (List.mem_cons_self e rest)

/-- C1 (amended): the scheduler conserves
`produced − consumed − Σ pool.resources − Σ delay.current_resources
+ Σ (queued ResourceAccepted amounts)`: every successful `Simulation::next`
transition preserves this balance, provided the pre-state queue is
protocol-well-formed (queued Resource amounts nonnegative, queued
ResourceAccepted events addressed to a booking process).  The claim's
`in_flight` — pending minus queued Resource amounts — is not the conserved
correction term (see the C1 counterexample). -/
theorem balance_preserved_by_next (sim : Simulation) (r : Simulation × List Event)
    (hq : QOK sim) (h : sim.next = some r) : balance r.1 = balance sim := by
  unfold Simulation.next at h
  cases hsp : sim.startPhase <;> rw [hsp] at h <;> dsimp only at h
  · exact Option.noConfusion h
  · rename_i sim1
    obtain ⟨hb0, hp0, hq0⟩ := startPhase_spec sim sim1 hsp
    cases hpop : popMin sim1.event_queue with
    | none =>
      rw [hpop] at h
      dsimp only at h
      cases hep : sim1.endPhase <;> rw [hep] at h <;> dsimp only at h
      · exact Option.noConfusion h
      · cases h
        rename_i sim2
        exact (endPhase_spec sim1 sim2 hep).trans hb0
    | some pe =>
      obtain ⟨e, rest⟩ := pe
      rw [hpop] at h
      dsimp only at h
      have hmem : e ∈ sim1.event_queue := popMin_mem hpop
      have hres : eventResourceOkB e = true := by
        rcases hq0 e hmem with hin | hstep
        · exact (hq e hin).1
        · unfold eventResourceOkB
          rw [hstep]
      have haccB : eventAcceptedOkB sim e = true := by
        rcases hq0 e hmem with hin | hstep
        · exact (hq e hin).2
        · unfold eventAcceptedOkB
          rw [hstep]
      have hqa := queueAcc_popMin hpop
      by_cases htgt : (e.target_id == "broadcast") = true
      · rw [if_pos htgt] at h
        have hacc0 : Event.acceptedAmount e = 0 :=
          acceptedOk_broadcast haccB (beq_iff_eq.mp htgt)
        split at h
        · exact Option.noConfusion h
        · rename_i r2 hbe
          split at h
          · exact Option.noConfusion h
          · rename_i sim4 hse
            split at h
            · exact Option.noConfusion h
            · rename_i sim5 hep
              cases h
              unfold Simulation.process_broadcast_event at hbe
              obtain ⟨hd1, hd2, hd3⟩ := broadcastGo_balance _ _ _ _ _ hbe hres hacc0
              obtain ⟨hm1, hm2, hm3⟩ := schedule_events_spec r2.2 r2.1 _ hse
              rw [queueAcc_nil] at hd1
              dsimp only at hd1 hd2
              rw [hp0] at hd1
              rw [endPhase_spec sim4 sim5 hep, balance_eq, hm2, hm1, hd2, ← hb0,
                balance_eq, hp0, hqa, hacc0]
              linarith [hd1]
      · rw [if_neg htgt] at h
        have hacc2 : ∀ p, alGet sim1.processes e.target_id = some p →
            Event.acceptedAmount e = 0 ∨ kindAbsorbsAccepted p = true := by
          intro p hp
          apply acceptedOk_target haccB p
          rw [← hp0]
          exact hp
        split at h
        · exact Option.noConfusion h
        · rename_i r2 hpe
          split at h
          · exact Option.noConfusion h
          · rename_i sim4 hse
            split at h
            · exact Option.noConfusion h
            · rename_i sim5 hep
              cases h
              obtain ⟨hd1, hd2, hd3⟩ := process_event_balance _ e r2 hpe hres hacc2
              obtain ⟨hm1, hm2, hm3⟩ := schedule_events_spec r2.2 r2.1 _ hse
              dsimp only at hd1 hd2
              rw [hp0] at hd1
              rw [endPhase_spec sim4 sim5 hep, balance_eq, hm2, hm1, hd2, ← hb0,
                balance_eq, hp0, hqa]
              linarith [hd1]

/-! ### C2 support: the dequeue order invariant -/

/-- Nonnegative effective flow rate (a Delay schedules its transfer at
`current_time + flow_rate`). -/
def connTimeOk (c : Connection) : Prop := 0 ≤ c.flow_rate.getD 1

instance (c : Connection) : Decidable (connTimeOk c) := by
  unfold connTimeOk
  infer_instance

/-- All connections of an io map have nonnegative effective flow rates. -/
def ioMapTimeOk (m : IoMap) : Prop :=
  ∀ kv ∈ m, ∀ pr ∈ kv.2, ∀ c ∈ pr.2, connTimeOk c

instance (m : IoMap) : Decidable (ioMapTimeOk m) := by
  unfold ioMapTimeOk
  infer_instance

/-- A Stepper's period is nonnegative (`Stepper::set_dt` enforces
`dt > 0`). -/
def procDtOk : Proc → Prop
  | .stepper st => 0 ≤ st.dt
  | _ => True

instance : (p : Proc) → Decidable (procDtOk p)
  | .source _ => .isTrue trivial
  | .pool _ => .isTrue trivial
  | .drain _ => .isTrue trivial
  | .delay _ => .isTrue trivial
  | .stepper st => inferInstanceAs (Decidable (0 ≤ st.dt))

/-- Connections handed to a handler have nonnegative effective flow rates. -/
def ctxTimeOk (ctx : ProcessContext) : Prop :=
  (∀ c ∈ ctx.inputs, connTimeOk c) ∧ ∀ c ∈ ctx.outputs, connTimeOk c

/-- Scheduling sanity of a simulation state: queued sequence numbers are
below the counter and distinct, queued times never lie in the past, and no
flow rate or stepper period can schedule into the past. -/
def SchedInv (sim : Simulation) : Prop :=
  (∀ e ∈ sim.event_queue, e.sequence_number < sim.event_sequence_number) ∧
  (sim.event_queue.map Event.sequence_number).Nodup ∧
  (∀ e ∈ sim.event_queue, sim.context.current_time ≤ e.time) ∧
  ioMapTimeOk sim.context.input_map ∧ ioMapTimeOk sim.context.output_map ∧
  (∀ kv ∈ sim.processes, procDtOk kv.2)

instance (sim : Simulation) : Decidable (SchedInv sim) := by
  unfold SchedInv
  infer_instance

/-- A processed event is a strict lexicographic lower bound of the state:
at or before the clock, below the sequence counter, and `keyLt`-below every
queued event. -/
def LBe (sim : Simulation) (p : Event) : Prop :=
  p.time ≤ sim.context.current_time ∧
  p.sequence_number < sim.event_sequence_number ∧
  ∀ f ∈ sim.event_queue, keyLt p f

theorem not_keyLt_iff (a b : Event) :
    ¬ keyLt a b ↔ b.time ≤ a.time ∧ (a.time = b.time → b.sequence_number ≤ a.sequence_number) := by
  unfold keyLt
  constructor
  · intro h
    push_neg at h
    exact ⟨h.1, fun he => h.2 he⟩
  · intro ⟨h1, h2⟩ hc
    rcases hc with hlt | ⟨he, hs⟩
    · exact absurd h1 (not_le.mpr hlt)
    · exact absurd (h2 he) (not_le.mpr hs)

theorem not_keyLt_trans {a b c : Event} (h1 : ¬ keyLt b a) (h2 : ¬ keyLt c b) :
    ¬ keyLt c a := by
  rw [not_keyLt_iff] at h1 h2 ⊢
  obtain ⟨t1, s1⟩ := h1
  obtain ⟨t2, s2⟩ := h2
  refine ⟨le_trans t1 t2, ?_⟩
  intro he
  have e1 : b.time = a.time := le_antisymm (le_trans t2 (le_of_eq he)) t1
  have e2 : c.time = b.time := he.trans e1.symm
  exact le_trans (s1 e1) (s2 e2)

theorem keyLt_asymm {a b : Event} (h : keyLt a b) : ¬ keyLt b a := by
  rw [not_keyLt_iff]
  rcases h with hlt | ⟨he, hs⟩
  · exact ⟨le_of_lt hlt, fun he2 => absurd he2 (ne_of_gt hlt)⟩
  · exact ⟨le_of_eq he, fun _ => le_of_lt hs⟩

/-- Minimality with a distinct sequence number flips into strict order. -/
theorem keyLt_flip {e f : Event} (h : ¬ keyLt f e)
    (hs : f.sequence_number ≠ e.sequence_number) : keyLt e f := by
  rw [not_keyLt_iff] at h
  rcases lt_or_eq_of_le h.1 with hlt | heq
  · exact Or.inl hlt
  · exact Or.inr ⟨heq, lt_of_le_of_ne (h.2 heq.symm) (Ne.symm hs)⟩

/-- Below the clock and the counter implies `keyLt` against any event at or
after the clock with a sequence number at or above the counter. -/
theorem keyLt_fresh {p f : Event} {t : ℚ} {n : ℕ} (hpt : p.time ≤ t)
    (hpn : p.sequence_number < n) (hft : t ≤ f.time)
    (hfn : n ≤ f.sequence_number) : keyLt p f := by
  rcases lt_or_eq_of_le (le_trans hpt hft) with hlt | heq
  · exact Or.inl hlt
  · exact Or.inr ⟨heq, lt_of_lt_of_le hpn hfn⟩

/-- `selectMin` returns a `keyLt`-minimal element. -/
theorem selectMin_min (e : Event) (es : List Event) :
    ∀ f ∈ (selectMin e es).2, ¬ keyLt f (selectMin e es).1 := by
  induction es generalizing e with
  | nil => intro f hf; simp [selectMin] at hf
  | cons g gs ih =>
    simp only [selectMin]
    split
    · rename_i hlt
      intro f hf
      rcases List.mem_cons.mp hf with rfl | hf2
      · exact keyLt_asymm hlt
      · exact ih g f hf2
    · rename_i hnlt
      intro f hf
      rcases List.mem_cons.mp hf with rfl | hf2
      · exact hnlt
      · exact not_keyLt_trans hnlt (ih g f hf2)

/-- The popped event is `keyLt`-minimal among the remaining events. -/
theorem popMin_min {q : List Event} {e : Event} {rest : List Event}
    (h : popMin q = some (e, rest)) : ∀ f ∈ rest, ¬ keyLt f e := by
  cases q with
  | nil => simp [popMin] at h
  | cons a as =>
    simp only [popMin, Option.some.injEq] at h
    have hm := selectMin_min a as
    rw [h] at hm
    exact hm

/-- A successful `alGet` exhibits a stored entry. -/
theorem alGet_mem {β : Type} {m : List (String × β)} {k : String} {v : β}
    (h : alGet m k = some v) : ∃ k2, (k2, v) ∈ m := by
  unfold alGet at h
  cases hf : m.find? (fun kv => kv.1 == k) <;> rw [hf] at h
  · exact Option.noConfusion h
  · rename_i kv
    simp only [Option.map, Option.some.injEq] at h
    exact ⟨kv.1, by rw [← h]; exact List.mem_of_find?_eq_some hf⟩

/-- Entries after `alSet` are old entries or the inserted one. -/
theorem alSet_mem {β : Type} (m : List (String × β)) (k : String) (v : β)
    (kv : String × β) (h : kv ∈ alSet m k v) : kv ∈ m ∨ kv = (k, v) := by
  induction m with
  | nil =>
    simp only [alSet] at h
    exact Or.inr (List.mem_singleton.mp h)
  | cons hd tl ih =>
    simp only [alSet] at h
    split at h
    · rcases List.mem_cons.mp h with rfl | hf
      · exact Or.inr rfl
      · exact Or.inl (List.mem_cons_of_mem hd hf)
    · rcases List.mem_cons.mp h with rfl | hf
      · exact Or.inl (List.mem_cons_self _ _)
      · rcases ih hf with hf2 | hf2
        · exact Or.inl (List.mem_cons_of_mem hd hf2)
        · exact Or.inr hf2

/-- The Stepper handler never changes the stepper itself. -/
theorem stepper_on_event_fst (st : Stepper) (e : Event) (ctx : ProcessContext) :
    (st.on_event e ctx).1 = st := by
  cases hpay : e.payload <;> simp [Stepper.on_event, hpay]

/-- `endPhase` never changes the simulation (the end broadcast's responses
are discarded and the handlers do not react to `SimulationEnd`). -/
theorem endPhase_frame (sim sim2 : Simulation) (h : sim.endPhase = some sim2) :
    sim2 = sim := by
  unfold Simulation.endPhase at h
  split at h
  · cases hb : sim.process_broadcast_event
        (lifecycleEvent .simulationEnd sim.context.current_time) <;>
      rw [hb] at h <;> dsimp only at h
    · exact Option.noConfusion h
    · cases h
      rename_i r
      unfold Simulation.process_broadcast_event at hb
      exact (broadcastGo_end _ _ _ _ _ rfl hb).1
  · cases h
    rfl

theorem pushAny_fold_time (pid : String) (t : ℚ) (conns : List Connection)
    (acc : Pool × List Event) :
    ∀ f ∈ (conns.foldl (Pool.pushAnyStep pid t) acc).2, f ∈ acc.2 ∨ f.time = t := by
  induction conns generalizing acc with
  | nil => exact fun f hf => Or.inl hf
  | cons c cs ih =>
    intro f hf
    simp only [List.foldl_cons] at hf
    rcases ih (Pool.pushAnyStep pid t acc c) f hf with hf2 | hf2
    · unfold Pool.pushAnyStep at hf2
      dsimp only at hf2
      split at hf2
      · rcases List.mem_append.mp hf2 with h3 | h3
        · exact Or.inl h3
        · rcases List.mem_singleton.mp h3 with rfl
          exact Or.inr rfl
      · exact Or.inl hf2
    · exact Or.inr hf2

theorem pushAll_fold_time (pid : String) (t : ℚ) (conns : List Connection)
    (acc : Pool × List Event) :
    ∀ f ∈ (conns.foldl (Pool.pushAllStep pid t) acc).2, f ∈ acc.2 ∨ f.time = t := by
  induction conns generalizing acc with
  | nil => exact fun f hf => Or.inl hf
  | cons c cs ih =>
    intro f hf
    simp only [List.foldl_cons] at hf
    rcases ih (Pool.pushAllStep pid t acc c) f hf with hf2 | hf2
    · unfold Pool.pushAllStep at hf2
      dsimp only at hf2
      rcases List.mem_append.mp hf2 with h3 | h3
      · exact Or.inl h3
      · rcases List.mem_singleton.mp h3 with rfl
        exact Or.inr rfl
    · exact Or.inr hf2

/-- The accept/reject pair is emitted at the handler's current time. -/
theorem mem_acc_rej_time (pid src : String) (t x y : ℚ) (f : Event)
    (hf : f ∈ (if 0 < x then [Event.mk0 pid none src none t (.resourceAccepted x)] else []) ++
      (if 0 < y then [Event.mk0 pid none src none t (.resourceRejected y)] else [])) :
    f.time = t := by
  rcases List.mem_append.mp hf with h | h <;> split at h <;>
    first
      | (rcases List.mem_singleton.mp h with rfl; rfl)
      | simp at h

/-- Every Pool emission is at the handler's current time. -/
theorem pool_on_event_time (q : Pool) (e : Event) (ctx : ProcessContext) :
    ∀ f ∈ (q.on_event e ctx).2, f.time = ctx.current_time := by
  intro f hf
  cases hpay : e.payload <;> simp only [Pool.on_event, hpay] at hf
  case step =>
    cases htm : q.trigger_mode <;> rw [htm] at hf <;>
      try (exact absurd hf (List.not_mem_nil f))
    cases hact : q.action <;>
      simp only [Pool.handle_automatic_action, hact] at hf
    case pushAny =>
      rcases pushAny_fold_time q.id ctx.current_time _ (q, []) f hf with h2 | h2
      · exact absurd h2 (List.not_mem_nil f)
      · exact h2
    case pushAll =>
      split at hf
      · rcases pushAll_fold_time q.id ctx.current_time _ (q, []) f hf with h2 | h2
        · exact absurd h2 (List.not_mem_nil f)
        · exact h2
      · exact absurd hf (List.not_mem_nil f)
    case pullAny =>
      rcases List.mem_map.mp hf with ⟨conn, hconn, rfl⟩
      rfl
    case pullAll =>
      rcases List.mem_map.mp hf with ⟨conn, hconn, rfl⟩
      rfl
  case resource a =>
    simp only [Pool.handle_resource] at hf
    by_cases hfull : q.capacity < 0 ∨ q.state.resources + a ≤ q.capacity
    · rw [if_pos hfull] at hf
      exact mem_acc_rej_time _ _ _ _ _ f hf
    · rw [if_neg hfull] at hf
      cases hov : q.overflow <;> rw [hov] at hf <;>
        exact mem_acc_rej_time _ _ _ _ _ f hf
  case pullRequest a =>
    simp only [Pool.handle_pull_request] at hf
    rcases List.mem_singleton.mp hf with rfl
    rfl
  all_goals exact absurd hf (List.not_mem_nil f)

/-- Every Source emission is at the handler's current time. -/
theorem source_push_any_time (s : Source) (ctx : ProcessContext) :
    ∀ f ∈ (s.handle_push_any ctx).2, f.time = ctx.current_time := by
  intro f hf
  rcases List.mem_map.mp hf with ⟨conn, hconn, rfl⟩
  rfl

theorem source_auto_time (s : Source) (ctx : ProcessContext) (r : Source × List Event)
    (h : s.handle_automatic_action ctx = some r) :
    ∀ f ∈ r.2, f.time = ctx.current_time := by
  unfold Source.handle_automatic_action at h
  cases hact : s.action <;> rw [hact] at h
  case pushAny =>
    cases h
    exact source_push_any_time s ctx
  all_goals exact Option.noConfusion h

theorem source_on_event_time (s : Source) (e : Event) (ctx : ProcessContext)
    (r : Source × List Event) (h : s.on_event e ctx = some r) :
    ∀ f ∈ r.2, f.time = ctx.current_time := by
  unfold Source.on_event at h
  cases hpay : e.payload <;> rw [hpay] at h <;> dsimp only at h
  case step =>
    cases htm : s.trigger_mode <;> rw [htm] at h <;> dsimp only at h
    case passive =>
      split at h
      · cases h
        intro f hf
        exact absurd hf (List.not_mem_nil f)
      · exact Option.noConfusion h
    case interactive => exact Option.noConfusion h
    case automatic =>
      cases hau : s.handle_automatic_action ctx <;> rw [hau] at h <;> dsimp only at h
      · exact Option.noConfusion h
      · split at h
        · cases h
          exact source_auto_time s ctx _ hau
        · exact Option.noConfusion h
    case enabling =>
      by_cases hstep : (ctx.current_step == 1) = true
      · rw [if_pos hstep] at h
        cases hau : s.handle_automatic_action ctx <;> rw [hau] at h <;> dsimp only at h
        · exact Option.noConfusion h
        · split at h
          · cases h
            exact source_auto_time s ctx _ hau
          · exact Option.noConfusion h
      · rw [if_neg hstep] at h
        dsimp only at h
        split at h
        · cases h
          intro f hf
          exact absurd hf (List.not_mem_nil f)
        · exact Option.noConfusion h
  case trigger =>
    cases hau : s.handle_automatic_action ctx <;> rw [hau] at h <;> dsimp only at h
    · exact Option.noConfusion h
    · split at h
      · cases h
        exact source_auto_time s ctx _ hau
      · exact Option.noConfusion h
  case pullRequest a =>
    split at h
    · cases h
      intro f hf
      rcases List.mem_singleton.mp hf with rfl
      rfl
    · exact Option.noConfusion h
  case pullAllRequest a t2 =>
    split at h
    · cases h
      intro f hf
      rcases List.mem_singleton.mp hf with rfl
      rfl
    · exact Option.noConfusion h
  all_goals
    split at h
    · cases h
      intro f hf
      exact absurd hf (List.not_mem_nil f)
    · exact Option.noConfusion h

theorem drain_step_time (d : Drain) (ctx : ProcessContext) :
    ∀ f ∈ (d.handle_step ctx).2, f.time = ctx.current_time := by
  unfold Drain.handle_step
  cases d.trigger_mode <;> cases d.action <;>
    simp only [Drain.handle_pull_any, Drain.handle_pull_all] <;>
    first
      | (intro f hf; exact absurd hf (List.not_mem_nil f))
      | (intro f hf
         rcases List.mem_map.mp hf with ⟨conn, hconn, rfl⟩
         rfl)

/-- Every Drain emission is at the handler's current time. -/
theorem drain_on_event_time (d : Drain) (e : Event) (ctx : ProcessContext) :
    ∀ f ∈ (d.on_event e ctx).2, f.time = ctx.current_time := by
  intro f hf
  cases hpay : e.payload <;> simp only [Drain.on_event, hpay] at hf
  case step => exact drain_step_time d ctx f hf
  case resource a =>
    rcases List.mem_singleton.mp hf with rfl
    rfl
  all_goals exact absurd hf (List.not_mem_nil f)

/-- Stepper emissions never lie before the current time. -/
theorem stepper_on_event_time (st : Stepper) (e : Event) (ctx : ProcessContext)
    (hd : 0 ≤ st.dt) :
    ∀ f ∈ (st.on_event e ctx).2, ctx.current_time ≤ f.time := by
  intro f hf
  cases hpay : e.payload <;> simp only [Stepper.on_event, hpay] at hf
  case simulationStart =>
    rcases List.mem_singleton.mp hf with rfl
    exact le_refl _
  case step =>
    rcases List.mem_singleton.mp hf with rfl
    simp only [Event.mk0]
    linarith
  all_goals exact absurd hf (List.not_mem_nil f)

/-- `queueReceive` emits the acknowledgement and possibly a transfer at the
given time. -/
theorem queueReceive_times (d2 : Delay) (delay t : ℚ) (ack : Event) (tid : String)
    (tport : Option String) :
    ∀ f ∈ (d2.queueReceive delay t ack tid tport).2, f = ack ∨ f.time = t := by
  unfold Delay.queueReceive
  split
  · intro f hf
    rcases List.mem_cons.mp hf with rfl | hf2
    · exact Or.inl rfl
    · rcases List.mem_singleton.mp hf2 with rfl
      exact Or.inr rfl
  · intro f hf
    rcases List.mem_singleton.mp hf with rfl
    exact Or.inl rfl

/-- Delay emissions never lie before the current time when the output flow
rates are nonnegative. -/
theorem delay_handle_resource_time (d : Delay) (e : Event) (ctx : ProcessContext)
    (a : ℚ) (r : Delay × List Event) (h : d.handle_resource e ctx a = some r)
    (hcout : ∀ c ∈ ctx.outputs, connTimeOk c) :
    ∀ f ∈ r.2, ctx.current_time ≤ f.time := by
  unfold Delay.handle_resource at h
  split at h
  · exact Option.noConfusion h
  · split at h
    · cases h
      intro f hf
      rcases List.mem_singleton.mp hf with rfl
      exact le_refl _
    · rename_i conn rest heq
      split at h
      · cases h
        intro f hf
        rcases List.mem_singleton.mp hf with rfl
        exact le_refl _
      · have hconn : conn ∈ ctx.outputs := by
          have hmem : conn ∈ ctx.outputs_for_port (some "out") := by
            rw [heq]
            exact List.mem_cons_self _ _
          exact List.mem_of_mem_filter hmem
        have hdelay : 0 ≤ conn.flow_rate.getD 1 := hcout conn hconn
        dsimp only at h
        cases hact : d.action <;> rw [hact] at h
        case delay =>
          cases h
          intro f hf
          rcases List.mem_cons.mp hf with rfl | hf2
          · exact le_refl _
          · rcases List.mem_singleton.mp hf2 with rfl
            simp only [Delay.create_transfer_event, Event.mk0]
            linarith
        case queue =>
          cases h
          intro f hf
          rcases queueReceive_times _ _ _ _ _ _ f hf with rfl | ht
          · exact le_refl _
          · rw [ht]

theorem delay_on_event_time (d : Delay) (e : Event) (ctx : ProcessContext)
    (r : Delay × List Event) (h : d.on_event e ctx = some r)
    (hcout : ∀ c ∈ ctx.outputs, connTimeOk c) :
    ∀ f ∈ r.2, ctx.current_time ≤ f.time := by
  unfold Delay.on_event at h
  cases hpay : e.payload <;> rw [hpay] at h <;> dsimp only at h
  case step =>
    cases hact : d.action <;> rw [hact] at h <;> dsimp only at h
    case delay =>
      split at h
      · cases h
        intro f hf
        exact absurd hf (List.not_mem_nil f)
      · exact Option.noConfusion h
    case queue =>
      cases houts : ctx.outputs_for_port (some "out") <;> rw [houts] at h <;>
        dsimp only at h
      · split at h
        · cases h
          intro f hf
          exact absurd hf (List.not_mem_nil f)
        · exact Option.noConfusion h
      · rename_i conn rest
        by_cases hcond : rest = [] ∧ d.can_release_from_queue ctx.current_time
        · rw [if_pos hcond] at h
          dsimp only at h
          split at h
          · cases h
            intro f hf
            rcases List.mem_singleton.mp hf with rfl
            exact le_refl _
          · exact Option.noConfusion h
        · rw [if_neg hcond] at h
          dsimp only at h
          split at h
          · cases h
            intro f hf
            exact absurd hf (List.not_mem_nil f)
          · exact Option.noConfusion h
  case pullRequest a =>
    split at h
    · cases h
      intro f hf
      rcases List.mem_map.mp hf with ⟨conn, hconn, rfl⟩
      exact le_refl _
    · exact Option.noConfusion h
  case pullAllRequest a t2 =>
    split at h
    · cases h
      intro f hf
      rcases List.mem_map.mp hf with ⟨conn, hconn, rfl⟩
      exact le_refl _
    · exact Option.noConfusion h
  case resource a =>
    cases hhr : d.handle_resource e ctx a <;> rw [hhr] at h <;> dsimp only at h
    · exact Option.noConfusion h
    · split at h
      · cases h
        exact delay_handle_resource_time d e ctx a _ hhr hcout
      · exact Option.noConfusion h
  all_goals
    split at h
    · cases h
      intro f hf
      exact absurd hf (List.not_mem_nil f)
    · exact Option.noConfusion h

/-- Combined: no handler emission lies before the handler's current time. -/
theorem proc_on_event_time (p : Proc) (e : Event) (ctx : ProcessContext)
    (r : Proc × List Event) (h : p.on_event e ctx = some r)
    (hctx : ctxTimeOk ctx) (hd : procDtOk p) :
    ∀ f ∈ r.2, ctx.current_time ≤ f.time := by
  cases p
  case source s =>
    simp only [Proc.on_event] at h
    cases hs : s.on_event e ctx <;> rw [hs] at h <;> simp only [Option.map] at h
    · exact Option.noConfusion h
    · cases h
      intro f hf
      exact le_of_eq (source_on_event_time s e ctx _ hs f hf).symm
  case pool q =>
    simp only [Proc.on_event] at h
    cases h
    intro f hf
    exact le_of_eq (pool_on_event_time q e ctx f hf).symm
  case drain d =>
    simp only [Proc.on_event] at h
    cases h
    intro f hf
    exact le_of_eq (drain_on_event_time d e ctx f hf).symm
  case delay d =>
    simp only [Proc.on_event] at h
    cases hs : d.on_event e ctx <;> rw [hs] at h <;> simp only [Option.map] at h
    · exact Option.noConfusion h
    · cases h
      exact delay_on_event_time d e ctx _ hs hctx.2
  case stepper st =>
    simp only [Proc.on_event] at h
    cases h
    exact stepper_on_event_time st e ctx hd

/-- Handlers preserve the stepper-period sanity of the process. -/
theorem proc_on_event_dtOk (p : Proc) (e : Event) (ctx : ProcessContext)
    (r : Proc × List Event) (h : p.on_event e ctx = some r)
    (hd : procDtOk p) : procDtOk r.1 := by
  cases p
  case source s =>
    simp only [Proc.on_event] at h
    cases hs : s.on_event e ctx <;> rw [hs] at h <;> simp only [Option.map] at h
    · exact Option.noConfusion h
    · cases h
      trivial
  case pool q =>
    simp only [Proc.on_event] at h
    cases h
    trivial
  case drain d =>
    simp only [Proc.on_event] at h
    cases h
    trivial
  case delay d =>
    simp only [Proc.on_event] at h
    cases hs : d.on_event e ctx <;> rw [hs] at h <;> simp only [Option.map] at h
    · exact Option.noConfusion h
    · cases h
      trivial
  case stepper st =>
    simp only [Proc.on_event] at h
    cases h
    show procDtOk (.stepper (st.on_event e ctx).1)
    rw [stepper_on_event_fst]
    exact hd

/-- The per-process context inherits nonnegative flow rates from the io
maps. -/
theorem context_for_process_timeOk (c : SimulationContext) (id : String)
    (hin : ioMapTimeOk c.input_map) (hout : ioMapTimeOk c.output_map) :
    ctxTimeOk (c.context_for_process id) := by
  constructor
  · intro conn hconn
    simp only [SimulationContext.context_for_process,
      SimulationContext.process_inputs] at hconn
    cases halg : alGet c.input_map id <;> rw [halg] at hconn
    · simp at hconn
    · rename_i pm
      rcases List.mem_flatten.mp hconn with ⟨l, hl, hconn2⟩
      rcases List.mem_map.mp hl with ⟨pr, hpr, rfl⟩
      obtain ⟨k2, hk2⟩ := alGet_mem halg
      exact hin (k2, pm) hk2 pr hpr conn hconn2
  · intro conn hconn
    simp only [SimulationContext.context_for_process,
      SimulationContext.process_outputs] at hconn
    cases halg : alGet c.output_map id <;> rw [halg] at hconn
    · simp at hconn
    · rename_i pm
      rcases List.mem_flatten.mp hconn with ⟨l, hl, hconn2⟩
      rcases List.mem_map.mp hl with ⟨pr, hpr, rfl⟩
      obtain ⟨k2, hk2⟩ := alGet_mem halg
      exact hout (k2, pm) hk2 pr hpr conn hconn2

/-- `schedule_event` exactly: append with the fresh sequence number. -/
theorem schedule_event_queue (sim sim2 : Simulation) (e : Event)
    (h : sim.schedule_event e = .ok sim2) :
    sim2.event_queue = sim.event_queue ++
      [{ e with sequence_number := sim.event_sequence_number }] ∧
    sim2.event_sequence_number = sim.event_sequence_number + 1 ∧
    sim2.processes = sim.processes ∧ sim2.context = sim.context := by
  unfold Simulation.schedule_event at h
  cases hv : sim.validate_event e <;> rw [hv] at h <;> dsimp only at h
  · exact Except.noConfusion h
  · cases h
    exact ⟨rfl, rfl, rfl, rfl⟩

/-- `schedule_events` keeps the scheduling invariant: fresh bounded and
distinct sequence numbers, and a time lower bound shared by the queue and
the scheduled events. -/
theorem schedule_events_sched (evts : List Event) (sim sim2 : Simulation) (tlo : ℚ)
    (h : sim.schedule_events evts = .ok sim2)
    (hseq : ∀ f ∈ sim.event_queue, f.sequence_number < sim.event_sequence_number)
    (hnd : (sim.event_queue.map Event.sequence_number).Nodup)
    (htime : ∀ f ∈ sim.event_queue, tlo ≤ f.time)
    (hevt : ∀ g ∈ evts, tlo ≤ g.time) :
    sim2.context = sim.context ∧ sim2.processes = sim.processes ∧
    sim.event_sequence_number ≤ sim2.event_sequence_number ∧
    (∀ f ∈ sim2.event_queue, f.sequence_number < sim2.event_sequence_number) ∧
    (sim2.event_queue.map Event.sequence_number).Nodup ∧
    (∀ f ∈ sim2.event_queue, tlo ≤ f.time) ∧
    (∀ f ∈ sim2.event_queue, f ∈ sim.event_queue ∨
      sim.event_sequence_number ≤ f.sequence_number) := by
  induction evts generalizing sim with
  | nil =>
    unfold Simulation.schedule_events at h
    cases h
    exact ⟨rfl, rfl, le_refl _, hseq, hnd, htime, fun f hf => Or.inl hf⟩
  | cons e rest ih =>
    unfold Simulation.schedule_events at h
    cases hse : sim.schedule_event e <;> rw [hse] at h <;> dsimp only at h
    · exact Except.noConfusion h
    · rename_i sim1
      obtain ⟨hQ, hN, hP, hC⟩ := schedule_event_queue sim sim1 e hse
      have hseq1 : ∀ f ∈ sim1.event_queue,
          f.sequence_number < sim1.event_sequence_number := by
        intro f hf
        rw [hQ] at hf
        rw [hN]
        rcases List.mem_append.mp hf with hf | hf
        · exact lt_trans (hseq f hf) (Nat.lt_succ_self _)
        · rcases List.mem_singleton.mp hf with rfl
          exact Nat.lt_succ_self _
      have hnd1 : (sim1.event_queue.map Event.sequence_number).Nodup := by
        rw [hQ, List.map_append, List.map_cons, List.map_nil]
        refine hnd.append (List.nodup_singleton _) ?_
        intro n hn hmem1
        rcases List.mem_singleton.mp hmem1 with rfl
        rcases List.mem_map.mp hn with ⟨f, hf, hfe⟩
        have hfe2 : f.sequence_number = sim.event_sequence_number := hfe
        have := hseq f hf
        omega
      have htime1 : ∀ f ∈ sim1.event_queue, tlo ≤ f.time := by
        intro f hf
        rw [hQ] at hf
        rcases List.mem_append.mp hf with hf | hf
        · exact htime f hf
        · rcases List.mem_singleton.mp hf with rfl
          exact hevt e (List.mem_cons_self _ _)
      obtain ⟨k1, k2, k3, k4, k5, k6, k7⟩ :=
        ih sim1 h hseq1 hnd1 htime1 (fun g hg => hevt g (List.mem_cons_of_mem e hg))
      refine ⟨k1.trans hC, k2.trans hP,
        le_trans (by rw [hN]; exact Nat.le_succ _) k3, k4, k5, k6, ?_⟩
      intro f hf
      rcases k7 f hf with hf2 | hbig
      · rw [hQ] at hf2
        rcases List.mem_append.mp hf2 with hf3 | hf3
        · exact Or.inl hf3
        · rcases List.mem_singleton.mp hf3 with rfl
          exact Or.inr (le_refl _)
      · refine Or.inr (le_trans ?_ hbig)
        rw [hN]
        exact Nat.le_succ _

/-- A broadcast pass keeps the scheduling frame: queue, context and counter
untouched, stepper periods preserved, emissions at or after the clock. -/
theorem broadcastGo_sched (e : Event) (ids : List String) (sim : Simulation)
    (acc : List Event) (r : Simulation × List Event)
    (h : broadcastGo e ids sim acc = some r)
    (hin : ioMapTimeOk sim.context.input_map)
    (hout : ioMapTimeOk sim.context.output_map)
    (hdt : ∀ kv ∈ sim.processes, procDtOk kv.2) :
    r.1.event_queue = sim.event_queue ∧ r.1.context = sim.context ∧
    r.1.event_sequence_number = sim.event_sequence_number ∧
    (∀ kv ∈ r.1.processes, procDtOk kv.2) ∧
    (∀ f ∈ r.2, f ∈ acc ∨ sim.context.current_time ≤ f.time) := by
  induction ids generalizing sim acc with
  | nil =>
    unfold broadcastGo at h
    cases h
    exact ⟨rfl, rfl, rfl, hdt, fun f hf => Or.inl hf⟩
  | cons id rest ih =>
    unfold broadcastGo at h
    cases hg : alGet sim.processes id <;> rw [hg] at h <;> dsimp only at h
    · exact ih _ _ h hin hout hdt
    · rename_i p
      cases ho : p.on_events [e] (sim.context.context_for_process id) <;>
        rw [ho] at h <;> dsimp only at h
      · exact Option.noConfusion h
      · rename_i r2
        rw [on_events_singleton] at ho
        have hpdt : procDtOk p := by
          obtain ⟨k2, hk2⟩ := alGet_mem hg
          exact hdt (k2, p) hk2
        have hctx := context_for_process_timeOk sim.context id hin hout
        have htime := proc_on_event_time p e _ r2 ho hctx hpdt
        have hdt2 : ∀ kv ∈ alSet sim.processes id r2.1, procDtOk kv.2 := by
          intro kv hkv
          rcases alSet_mem sim.processes id r2.1 kv hkv with hold | rfl
          · exact hdt kv hold
          · exact proc_on_event_dtOk p e _ r2 ho hpdt
        obtain ⟨h1, h2, h3, h4, h5⟩ := ih _ _ h hin hout hdt2
        refine ⟨h1, h2, h3, h4, ?_⟩
        intro f hf
        rcases h5 f hf with hf2 | hf2
        · rcases List.mem_append.mp hf2 with hf3 | hf3
          · exact Or.inl hf3
          · exact Or.inr (htime f hf3)
        · exact Or.inr hf2

/-- Targeted delivery keeps the scheduling frame. -/
theorem process_event_sched (sim : Simulation) (e : Event)
    (r : Simulation × List Event) (h : sim.process_event e = some r)
    (hin : ioMapTimeOk sim.context.input_map)
    (hout : ioMapTimeOk sim.context.output_map)
    (hdt : ∀ kv ∈ sim.processes, procDtOk kv.2) :
    r.1.event_queue = sim.event_queue ∧ r.1.context = sim.context ∧
    r.1.event_sequence_number = sim.event_sequence_number ∧
    (∀ kv ∈ r.1.processes, procDtOk kv.2) ∧
    (∀ f ∈ r.2, sim.context.current_time ≤ f.time) := by
  unfold Simulation.process_event at h
  cases hg : alGet sim.processes e.target_id <;> rw [hg] at h <;> dsimp only at h
  · exact Option.noConfusion h
  · rename_i p
    cases ho : p.on_events [e] (sim.context.context_for_process e.target_id) <;>
      rw [ho] at h <;> dsimp only at h
    · exact Option.noConfusion h
    · rename_i r2
      cases h
      rw [on_events_singleton] at ho
      have hpdt : procDtOk p := by
        obtain ⟨k2, hk2⟩ := alGet_mem hg
        exact hdt (k2, p) hk2
      have hctx := context_for_process_timeOk sim.context e.target_id hin hout
      refine ⟨rfl, rfl, rfl, ?_, proc_on_event_time p e _ r2 ho hctx hpdt⟩
      intro kv hkv
      rcases alSet_mem sim.processes e.target_id r2.1 kv hkv with hold | rfl
      · exact hdt kv hold
      · exact proc_on_event_dtOk p e _ r2 ho hpdt

/-- `startPhase` keeps the scheduling invariant; new events carry fresh
sequence numbers and are never scheduled into the past. -/
theorem startPhase_sched (sim sim1 : Simulation) (hinv : SchedInv sim)
    (h : sim.startPhase = some sim1) :
    SchedInv sim1 ∧ sim1.context = sim.context ∧
    sim.event_sequence_number ≤ sim1.event_sequence_number ∧
    (∀ f ∈ sim1.event_queue, f ∈ sim.event_queue ∨
      sim.event_sequence_number ≤ f.sequence_number) := by
  obtain ⟨i1, i2, i3, i4, i5, i6⟩ := hinv
  unfold Simulation.startPhase at h
  split at h
  · cases hb : sim.process_broadcast_event
        (lifecycleEvent .simulationStart sim.context.current_time) <;>
      rw [hb] at h <;> dsimp only at h
    · exact Option.noConfusion h
    · rename_i r
      cases hs : r.1.schedule_events r.2 <;> rw [hs] at h <;> dsimp only at h
      · exact Option.noConfusion h
      · cases h
        unfold Simulation.process_broadcast_event at hb
        obtain ⟨b1, b2, b3, b4, b5⟩ := broadcastGo_sched _ _ _ _ _ hb i4 i5 i6
        have hseqr : ∀ f ∈ r.1.event_queue,
            f.sequence_number < r.1.event_sequence_number := by
          intro f hf
          rw [b1] at hf
          rw [b3]
          exact i1 f hf
        have hndr : (r.1.event_queue.map Event.sequence_number).Nodup := by
          rw [b1]
          exact i2
        have htimer : ∀ f ∈ r.1.event_queue, sim.context.current_time ≤ f.time := by
          intro f hf
          rw [b1] at hf
          exact i3 f hf
        have hevtr : ∀ g ∈ r.2, sim.context.current_time ≤ g.time := by
          intro g hg
          rcases b5 g hg with hg2 | hg2
          · simp at hg2
          · exact hg2
        obtain ⟨k1, k2, k3, k4, k5, k6, k7⟩ :=
          schedule_events_sched r.2 r.1 sim1 sim.context.current_time hs hseqr hndr
            htimer hevtr
        have hctx1 : sim1.context = sim.context := k1.trans b2
        refine ⟨⟨k4, k5, ?_, ?_, ?_, ?_⟩, hctx1, ?_, ?_⟩
        · intro f hf
          rw [hctx1]
          exact k6 f hf
        · rw [hctx1]
          exact i4
        · rw [hctx1]
          exact i5
        · rw [k2]
          exact b4
        · rw [← b3]
          exact k3
        · intro f hf
          rcases k7 f hf with hf2 | hbig
          · rw [b1] at hf2
            exact Or.inl hf2
          · rw [b3] at hbig
            exact Or.inr hbig
  · cases h
    exact ⟨⟨i1, i2, i3, i4, i5, i6⟩, rfl, le_refl _, fun f hf => Or.inl hf⟩

/-- Transfer a lexicographic lower bound along a step that only moves the
clock and the counter forward and adds fresh future events. -/
theorem LBe_transfer {simA simB : Simulation} {p : Event} (hp : LBe simA p)
    (hct : simA.context.current_time ≤ simB.context.current_time)
    (hcnt : simA.event_sequence_number ≤ simB.event_sequence_number)
    (hq : ∀ f ∈ simB.event_queue, keyLt p f ∨
      (simA.event_sequence_number ≤ f.sequence_number ∧
       simB.context.current_time ≤ f.time)) :
    LBe simB p := by
  obtain ⟨h1, h2, h3⟩ := hp
  refine ⟨le_trans h1 hct, lt_of_lt_of_le h2 hcnt, ?_⟩
  intro f hf
  rcases hq f hf with hk | ⟨hs, ht⟩
  · exact hk
  · exact keyLt_fresh (le_trans h1 hct) h2 ht hs

/-- One `Simulation::next` call preserves the scheduling invariant, its
processed events lower-bound the resulting state, and earlier lower bounds
stay strictly below everything processed. -/
theorem next_sched (sim : Simulation) (r : Simulation × List Event)
    (hinv : SchedInv sim) (h : sim.next = some r) :
    SchedInv r.1 ∧ (∀ q ∈ r.2, LBe r.1 q) ∧
    (∀ p, LBe sim p → (∀ q ∈ r.2, keyLt p q) ∧ LBe r.1 p) ∧
    List.Pairwise keyLt r.2 := by
  unfold Simulation.next at h
  cases hsp : sim.startPhase <;> rw [hsp] at h <;> dsimp only at h
  · exact Option.noConfusion h
  · rename_i sim1
    obtain ⟨hinv1, hctx1, hcnt1, hmem1⟩ := startPhase_sched sim sim1 hinv hsp
    have hLB1 : ∀ p, LBe sim p → LBe sim1 p := by
      intro p hp
      refine LBe_transfer hp (le_of_eq (by rw [hctx1])) hcnt1 ?_
      intro f hf
      rcases hmem1 f hf with hold | hbig
      · exact Or.inl (hp.2.2 f hold)
      · exact Or.inr ⟨hbig, hinv1.2.2.1 f hf⟩
    cases hpop : popMin sim1.event_queue with
    | none =>
      rw [hpop] at h
      dsimp only at h
      cases hep : sim1.endPhase <;> rw [hep] at h <;> dsimp only at h
      · exact Option.noConfusion h
      · cases h
        rename_i sim2
        have hframe := endPhase_frame sim1 sim2 hep
        subst hframe
        refine ⟨hinv1, ?_, ?_, ?_⟩
        · intro q hq
          exact absurd hq (List.not_mem_nil q)
        · intro p hp
          exact ⟨fun q hq => absurd hq (List.not_mem_nil q), hLB1 p hp⟩
        · exact List.Pairwise.nil
    | some pe =>
      obtain ⟨e, rest⟩ := pe
      rw [hpop] at h
      dsimp only at h
      obtain ⟨i1, i2, i3, i4, i5, i6⟩ := hinv1
      have he_mem : e ∈ sim1.event_queue := popMin_mem hpop
      have heseq : e.sequence_number < sim1.event_sequence_number := i1 e he_mem
      have hetime : sim1.context.current_time ≤ e.time := i3 e he_mem
      have hmin : ∀ f ∈ rest, ¬ keyLt f e := popMin_min hpop
      have hrest_mem : ∀ f ∈ rest, f ∈ sim1.event_queue := fun f hf =>
        (popMin_perm hpop).mem_iff.mpr (List.mem_cons_of_mem e hf)
      have hnd_er : (List.map Event.sequence_number (e :: rest)).Nodup :=
        ((popMin_perm hpop).map Event.sequence_number).nodup_iff.mp i2
      rw [List.map_cons, List.nodup_cons] at hnd_er
      have hlt_e_rest : ∀ f ∈ rest, keyLt e f := by
        intro f hf
        refine keyLt_flip (hmin f hf) ?_
        intro heq
        exact hnd_er.1 (heq ▸ List.mem_map_of_mem Event.sequence_number hf)
      have hrest_time : ∀ f ∈ rest, e.time ≤ f.time := fun f hf =>
        ((not_keyLt_iff f e).mp (hmin f hf)).1
      have hrest_seq : ∀ f ∈ rest, f.sequence_number < sim1.event_sequence_number :=
        fun f hf => i1 f (hrest_mem f hf)
      by_cases htgt : (e.target_id == "broadcast") = true
      · rw [if_pos htgt] at h
        split at h
        · exact Option.noConfusion h
        · rename_i r2 hbe
          split at h
          · exact Option.noConfusion h
          · rename_i sim4 hse
            split at h
            · exact Option.noConfusion h
            · rename_i sim5 hep
              cases h
              have hframe := endPhase_frame sim4 sim5 hep
              subst hframe
              unfold Simulation.process_broadcast_event at hbe
              obtain ⟨b1, b2, b3, b4, b5⟩ :=
                broadcastGo_sched e _ _ [] r2 hbe i4 i5 i6
              dsimp only at b1 b2 b3 b5
              have hcnt2 : sim1.event_sequence_number = r2.1.event_sequence_number :=
                b3.symm
              obtain ⟨k1, k2, k3, k4, k5, k6, k7⟩ :=
                schedule_events_sched r2.2 r2.1 sim5 e.time hse
                  (by intro f hf; rw [b1] at hf; rw [← hcnt2]; exact hrest_seq f hf)
                  (by rw [b1]; exact hnd_er.2)
                  (by intro f hf; rw [b1] at hf; exact hrest_time f hf)
                  (by
                    intro g hg
                    rcases b5 g hg with hg2 | hg2
                    · simp at hg2
                    · exact hg2)
              have hct4 : sim5.context.current_time = e.time := by rw [k1, b2]
              have hcnt4 : sim1.event_sequence_number ≤ sim5.event_sequence_number := by
                rw [hcnt2]
                exact k3
              have hqall : ∀ f ∈ sim5.event_queue,
                  f ∈ rest ∨ sim1.event_sequence_number ≤ f.sequence_number := by
                intro f hf
                rcases k7 f hf with hf2 | hbig
                · rw [b1] at hf2
                  exact Or.inl hf2
                · rw [← hcnt2] at hbig
                  exact Or.inr hbig
              refine ⟨⟨k4, k5, ?_, ?_, ?_, ?_⟩, ?_, ?_, ?_⟩
              · intro f hf
                rw [hct4]
                exact k6 f hf
              · rw [k1, b2]
                exact i4
              · rw [k1, b2]
                exact i5
              · rw [k2]
                exact b4
              · intro q hq
                rw [List.mem_singleton.mp hq]
                refine ⟨le_of_eq hct4.symm, lt_of_lt_of_le heseq hcnt4, ?_⟩
                intro f hf
                rcases hqall f hf with hf2 | hbig
                · exact hlt_e_rest f hf2
                · exact keyLt_fresh (le_refl e.time) heseq (k6 f hf) hbig
              · intro p hp
                have hp1 := hLB1 p hp
                refine ⟨?_, ?_, ?_, ?_⟩
                · intro q hq
                  rw [List.mem_singleton.mp hq]
                  exact hp1.2.2 e he_mem
                · rw [hct4]
                  exact le_trans hp1.1 hetime
                · exact lt_of_lt_of_le hp1.2.1 hcnt4
                · intro f hf
                  rcases hqall f hf with hf2 | hbig
                  · exact hp1.2.2 f (hrest_mem f hf2)
                  · exact keyLt_fresh (le_trans hp1.1 hetime) hp1.2.1
                      (k6 f hf) hbig
              · exact List.pairwise_singleton keyLt e
      · rw [if_neg htgt] at h
        split at h
        · exact Option.noConfusion h
        · rename_i r2 hpe
          split at h
          · exact Option.noConfusion h
          · rename_i sim4 hse
            split at h
            · exact Option.noConfusion h
            · rename_i sim5 hep
              cases h
              have hframe := endPhase_frame sim4 sim5 hep
              subst hframe
              obtain ⟨b1, b2, b3, b4, b5⟩ :=
                process_event_sched _ e r2 hpe i4 i5 i6
              dsimp only at b1 b2 b3 b5
              have hcnt2 : sim1.event_sequence_number = r2.1.event_sequence_number :=
                b3.symm
              obtain ⟨k1, k2, k3, k4, k5, k6, k7⟩ :=
                schedule_events_sched r2.2 r2.1 sim5 e.time hse
                  (by intro f hf; rw [b1] at hf; rw [← hcnt2]; exact hrest_seq f hf)
                  (by rw [b1]; exact hnd_er.2)
                  (by intro f hf; rw [b1] at hf; exact hrest_time f hf)
                  b5
              have hct4 : sim5.context.current_time = e.time := by rw [k1, b2]
              have hcnt4 : sim1.event_sequence_number ≤ sim5.event_sequence_number := by
                rw [hcnt2]
                exact k3
              have hqall : ∀ f ∈ sim5.event_queue,
                  f ∈ rest ∨ sim1.event_sequence_number ≤ f.sequence_number := by
                intro f hf
                rcases k7 f hf with hf2 | hbig
                · rw [b1] at hf2
                  exact Or.inl hf2
                · rw [← hcnt2] at hbig
                  exact Or.inr hbig
              refine ⟨⟨k4, k5, ?_, ?_, ?_, ?_⟩, ?_, ?_, ?_⟩
              · intro f hf
                rw [hct4]
                exact k6 f hf
              · rw [k1, b2]
                exact i4
              · rw [k1, b2]
                exact i5
              · rw [k2]
                exact b4
              · intro q hq
                rw [List.mem_singleton.mp hq]
                refine ⟨le_of_eq hct4.symm, lt_of_lt_of_le heseq hcnt4, ?_⟩
                intro f hf
                rcases hqall f hf with hf2 | hbig
                · exact hlt_e_rest f hf2
                · exact keyLt_fresh (le_refl e.time) heseq (k6 f hf) hbig
              · intro p hp
                have hp1 := hLB1 p hp
                refine ⟨?_, ?_, ?_, ?_⟩
                · intro q hq
                  rw [List.mem_singleton.mp hq]
                  exact hp1.2.2 e he_mem
                · rw [hct4]
                  exact le_trans hp1.1 hetime
                · exact lt_of_lt_of_le hp1.2.1 hcnt4
                · intro f hf
                  rcases hqall f hf with hf2 | hbig
                  · exact hp1.2.2 f (hrest_mem f hf2)
                  · exact keyLt_fresh (le_trans hp1.1 hetime) hp1.2.1
                      (k6 f hf) hbig
              · exact List.pairwise_singleton keyLt e

/-- Runs of `next` process events in strictly increasing `(time, sequence)`
order. -/
theorem next_run_sched (k : ℕ) (sim : Simulation) (r : Simulation × List Event)
    (hinv : SchedInv sim) (h : sim.next_run k = some r) :
    SchedInv r.1 ∧ (∀ q ∈ r.2, LBe r.1 q) ∧
    (∀ p, LBe sim p → (∀ q ∈ r.2, keyLt p q) ∧ LBe r.1 p) ∧
    List.Pairwise keyLt r.2 := by
  induction k generalizing sim r with
  | zero =>
    unfold Simulation.next_run at h
    cases h
    exact ⟨hinv, fun q hq => absurd hq (List.not_mem_nil q),
      fun p hp => ⟨fun q hq => absurd hq (List.not_mem_nil q), hp⟩, List.Pairwise.nil⟩
  | succ n ih =>
    unfold Simulation.next_run at h
    cases hn : sim.next <;> rw [hn] at h <;> dsimp only at h
    · exact Option.noConfusion h
    · rename_i r1
      cases hrun : Simulation.next_run n r1.1 <;> rw [hrun] at h <;> dsimp only at h
      · exact Option.noConfusion h
      · rename_i r2
        cases h
        obtain ⟨i1, i2, i3, i4⟩ := next_sched sim r1 hinv hn
        obtain ⟨j1, j2, j3, j4⟩ := ih r1.1 r2 i1 hrun
        refine ⟨j1, ?_, ?_, ?_⟩
        · intro q hq
          rcases List.mem_append.mp hq with hq1 | hq2
          · exact (j3 q (i2 q hq1)).2
          · exact j2 q hq2
        · intro p hp
          obtain ⟨hk1, hl1⟩ := i3 p hp
          obtain ⟨hk2, hl2⟩ := j3 p hl1
          refine ⟨?_, hl2⟩
          intro q hq
          rcases List.mem_append.mp hq with h1 | h2
          · exact hk1 q h1
          · exact hk2 q h2
        · rw [List.pairwise_append]
          refine ⟨i4, j4, ?_⟩
          intro a ha b hb
          exact (j3 a (i2 a ha)).1 b hb

/-- C2: the dequeue/processing order is strictly lexicographic.  For any
run of `Simulation::next` from a state with sane scheduling data (fresh,
distinct queue sequence numbers; no queued event in the past; nonnegative
flow rates and stepper periods), any event dequeued before another is
earlier in `(time, sequence_number)` lexicographic order — exactly the
`Ord` instance the event heap uses. -/
theorem processed_events_lex_ordered (k : ℕ) (sim : Simulation)
    (r : Simulation × List Event) (hinv : SchedInv sim)
    (h : sim.next_run k = some r) : List.Pairwise keyLt r.2 :=
  (next_run_sched k sim r hinv h).2.2.2

/-- C2 witness: a three-step run of the concrete Stepper/Source/Pool model,
with the scheduling hypothesis checked by evaluation. -/
theorem processed_events_lex_ordered_witness :
    (simC1.next_run 3).map (fun r => decide (List.Pairwise keyLt r.2)) = some true := by
  have hsome : (simC1.next_run 3).isSome = true := by decide
  cases heq : simC1.next_run 3 with
  | none =>
    rw [heq] at hsome
    exact Bool.noConfusion hsome
  | some r =>
    simp only [Option.map]
    rw [decide_eq_true (processed_events_lex_ordered 3 simC1 r (by decide) heq)]

/-- C1 witness: the preserved balance on the concrete two-pool model,
with the protocol hypothesis checked by evaluation. -/
theorem balance_preserved_by_next_witness :
    simC1.next.map (fun r => balance r.1) = some (balance simC1) := by
  have hsome : simC1.next.isSome = true := by decide
  cases heq : simC1.next with
  | none =>
    rw [heq] at hsome
    exact Bool.noConfusion hsome
  | some r =>
    simp only [Option.map]
    rw [balance_preserved_by_next simC1 r (by decide) heq]

end Simcraft
